import Mathlib

/-!
Shallow embedding of the wage-discrimination agent-based market model
(src/models/worker.py, src/models/firm.py, src/models/market.py).

Modelling conventions:
* Python floats are modelled as exact rationals (`ℚ`); every arithmetic
  fact the claims mention is exact at that level.
* Randomness is externalized: each call site that consumes the model's
  random source (class draws, productivity draws, discount draws, the
  active-worker sample, indifference coins, firm samples) takes the drawn
  value as an explicit parameter.
* Workers and firms live in lists owned by the `Market`; the mutual
  object references of the source (worker.employer, firm.employees) are
  represented as list indices.
* Fallible Python operations are `Option`-valued: a `ZeroDivisionError`
  or `ValueError` is `none` at the level of the mutating operation, and
  `numpy.mean []` (which silently yields `nan`) is `none` at the level of
  the averaging helper, with nan-comparison semantics (`nan > x`,
  `nan == x` both false) reproduced at the single place the source
  consumes such an average.
-/

namespace ABM

/-- `numpy.mean` on a list of floats: the arithmetic mean, or the silent
non-numeric `nan` (modelled as `none`) when the list is empty. -/
def npMean (xs : List ℚ) : Option ℚ :=
  if xs.isEmpty then none else some (xs.sum / (xs.length : ℚ))

/-- Index of the first occurrence of the maximal element of `x :: t`. -/
def firstMaxIdxA (x : ℚ) : List ℚ → Nat
  | [] => 0
  | y :: t =>
    if (y :: t).getD (firstMaxIdxA y t) 0 > x then firstMaxIdxA y t + 1 else 0

/-- `wages.index (max wages)` of the source's `rank_firms`: the index of
the first occurrence of the maximal element, `none` for the empty list
(where Python's `max` raises `ValueError`). -/
def firstMaxIdx : List ℚ → Option Nat
  | [] => none
  | x :: t => some (firstMaxIdxA x t)

/-- Worker agent state (`Worker` in src/models/worker.py).  The source's
`firm_selection` assigns an attribute `switched` that is never declared in
`setup`; it is modelled as an `Option Bool` that is `none` until the first
assignment. -/
structure Worker where
  d_class : Nat
  prod : ℚ
  avg_prod : ℚ
  hrs : ℚ
  educ : Bool
  wage : ℚ
  employer : Option Nat
  employer_id : Option Nat
  employer_size : Option Nat
  search : Bool
  switch : Bool
  switched : Option Bool
deriving DecidableEq

/-- Firm agent state (`Firm` in src/models/firm.py); `employees` holds
worker indices. -/
structure Firm where
  d_factor : ℚ
  d_class : Nat
  employees : List Nat
  size : Nat
  size_0 : Nat
  size_1 : Nat
  price : ℚ
  costs : ℚ
  revenue : ℚ
  profit : ℚ
  output : ℚ
  output_0 : ℚ
  output_1 : ℚ
deriving DecidableEq

/-- The recognized configuration options (src/config/base_config.py).
`prod_range` is an inclusive integer range for `random.randint`. -/
structure Params where
  n_workers : Nat
  prod_range_lo : ℤ
  prod_range_hi : ℤ
  d_range_lo : ℚ
  d_range_hi : ℚ
  premium : ℚ
  weighted : Bool
  d_class : Nat
  active : ℚ
  sample : Nat
  steps : Nat
deriving DecidableEq

/-- One recorded per-worker dataset row (`Market.update`). -/
structure WorkerRow where
  d_class : Nat
  prod : ℚ
  hrs : ℚ
  employer : Option Nat
  employer_id : Option Nat
  employer_size : Option Nat
  wage : ℚ
  educ : Bool
  search : Bool
  switch : Bool
deriving DecidableEq

/-- One recorded per-firm dataset row (`Market.update`). -/
structure FirmRow where
  d_factor : ℚ
  size : Nat
  size_0 : Nat
  size_1 : Nat
  output : ℚ
  output_0 : ℚ
  output_1 : ℚ
  costs : ℚ
  revenue : ℚ
  profit : ℚ
deriving DecidableEq

/-- The random draws one `Market.step` consumes: the active-worker sample
(in selection order), the indifference coin of each worker's education
decision, and the firm sample of each worker's `select_firms` call. -/
structure StepRand where
  active : List Nat
  coins : Nat → Bool
  samples : Nat → List Nat

/-- Whole-simulation state: parameter set, agent populations and the
recorded time series. -/
structure Market where
  p : Params
  workers : List Worker
  firms : List Firm
  workerLog : List (List WorkerRow)
  firmLog : List (List FirmRow)

/-- Placeholder worker used as the `List.getD` default; the source never
dereferences a worker index outside the population. -/
def dW : Worker :=
  { d_class := 0, prod := 0, avg_prod := 0, hrs := 0, educ := false, wage := 0,
    employer := none, employer_id := none, employer_size := none,
    search := false, switch := false, switched := none }

/-- Placeholder firm used as the `List.getD` default. -/
def dF : Firm :=
  { d_factor := 0, d_class := 0, employees := [], size := 0, size_0 := 0, size_1 := 0,
    price := 0, costs := 0, revenue := 0, profit := 0,
    output := 0, output_0 := 0, output_1 := 0 }

/-- Worker at index `i`. -/
def Market.wAt (m : Market) (i : Nat) : Worker := m.workers.getD i dW

/-- Firm at index `i`. -/
def Market.fAt (m : Market) (i : Nat) : Firm := m.firms.getD i dF

/-- Characteristic class of the worker at index `i`, as read live by
`Firm.set_size`. -/
def Market.dclassOf (m : Market) (i : Nat) : Nat := (m.wAt i).d_class

/-- `Worker.setup`: `dc` is the drawn `random.choice [1, 0]`, `prodDraw`
the drawn `random.randint (prod_range)` value. -/
def Worker.setup (p : Params) (dc : Nat) (prodDraw : ℤ) : Worker :=
  { d_class := dc
    prod := (prodDraw : ℚ)
    avg_prod := ((p.prod_range_hi : ℚ) + (p.prod_range_lo : ℚ)) / 2
    hrs := 8
    educ := false
    wage := 0
    employer := none
    employer_id := none
    employer_size := none
    search := false
    switch := false
    switched := none }

/-- `Firm.setup`: `dDraw` is the drawn (and already rounded)
`round (random.uniform (d_range), 2)` value. -/
def Firm.setup (p : Params) (dDraw : ℚ) : Firm :=
  { d_factor := dDraw, d_class := p.d_class, employees := [],
    size := 0, size_0 := 0, size_1 := 0,
    price := 1, costs := 0, revenue := 0, profit := 0,
    output := 0, output_0 := 0, output_1 := 0 }

/-- `Firm.set_size`: recompute `size`, `size_1`, `size_0` from the roster
and the live worker classes. -/
def Firm.set_size (dcl : Nat → Nat) (f : Firm) : Firm :=
  { f with size := f.employees.length
           size_1 := (f.employees.filter (fun i => dcl i = 1)).length
           size_0 := (f.employees.filter (fun i => dcl i = 0)).length }

/-- `Firm.hire`: idempotent roster insertion followed by `set_size`. -/
def Firm.hire (dcl : Nat → Nat) (f : Firm) (w : Nat) : Firm :=
  Firm.set_size dcl
    (if w ∈ f.employees then f else { f with employees := f.employees ++ [w] })

/-- `Firm.separate`: remove the first roster occurrence (Python
`list.remove`, guarded by a membership test) followed by `set_size`. -/
def Firm.separate (dcl : Nat → Nat) (f : Firm) (w : Nat) : Firm :=
  Firm.set_size dcl { f with employees := f.employees.erase w }

/-- `Firm.calc_wage`: marginal-product wage, discounted for the flagged
class.  A pure function of the two records. -/
def Firm.calc_wage (f : Firm) (w : Worker) : ℚ :=
  let wage := f.price * w.prod
  if w.d_class = f.d_class then wage * (1 - f.d_factor) else wage

/-- `Firm.produce`: class-partitioned output from the current roster. -/
def Firm.produce (emp : Nat → Worker) (f : Firm) : Firm :=
  { f with
      output := (f.employees.map (fun i => (emp i).prod * (emp i).hrs)).sum
      output_0 := ((f.employees.filter (fun i => (emp i).d_class = 0)).map
        (fun i => (emp i).prod * (emp i).hrs)).sum
      output_1 := ((f.employees.filter (fun i => (emp i).d_class = 1)).map
        (fun i => (emp i).prod * (emp i).hrs)).sum }

/-- `Firm.calc_profit`: revenue, wage bill and profit from the current
output and roster. -/
def Firm.calc_profit (emp : Nat → Worker) (f : Firm) : Firm :=
  { f with
      revenue := f.output * f.price
      costs := (f.employees.map (fun i => (emp i).wage * (emp i).hrs)).sum
      profit := f.output * f.price -
        (f.employees.map (fun i => (emp i).wage * (emp i).hrs)).sum }

/-- `Worker.update_employer`: set or clear the employer triple as a
group; `firm` carries the new employer's index and its size at call
time. -/
def Worker.update_employer (w : Worker) (firm : Option (Nat × Nat)) : Worker :=
  match firm with
  | some fs => { w with employer := some fs.1, employer_id := some fs.1,
                        employer_size := some fs.2 }
  | none => { w with employer := none, employer_id := none, employer_size := none }

/-- The `if self.employer: self.employer.separate(worker=self)` step of
`Worker.switch_employer`: when employed, the current employer removes the
worker from its roster. -/
def Market.separate_from_employer (m : Market) (wi : Nat) : Market :=
  match (m.wAt wi).employer with
  | some ei =>
    { m with firms := m.firms.set ei (Firm.separate m.dclassOf (m.firms.getD ei dF) wi) }
  | none => m

/-- `Worker.switch_employer` lifted to the market: separate from the
current employer (when employed), have the new firm hire the worker, then
update the worker's employer triple from the post-hire firm. -/
def Market.switch_employer (m : Market) (wi fi : Nat) : Market :=
  let m1 := m.separate_from_employer wi
  let firms2 := m1.firms.set fi (Firm.hire m1.dclassOf (m1.firms.getD fi dF) wi)
  { m1 with firms := firms2
            workers := m1.workers.set wi
              ((m1.wAt wi).update_employer (some (fi, (firms2.getD fi dF).size))) }

/-- `Worker.calc_avg_d`: average discount factor over the active (size
`> 0`) firms.  The weighted branch is a plain sum (`0`, with no division
executed, when no firm is active); the unweighted branch is
`numpy.mean`, hence `none`/nan on an empty active set. -/
def Market.calc_avg_d (m : Market) (weighted : Bool) : Option ℚ :=
  let firms := m.firms.filter (fun f => 0 < f.size)
  if weighted then
    let size : ℚ := (firms.map (fun f => (f.size : ℚ))).sum
    some ((firms.map (fun f => f.d_factor * ((f.size : ℚ) / size))).sum)
  else
    npMean (firms.map (fun f => f.d_factor))

/-- `Worker.get_education` lifted to the market: latch `educ`, scale
productivity by `1 + premium`, and recompute the wage at the current
employer when employed. -/
def Market.get_education (m : Market) (wi : Nat) (premium : ℚ) : Market :=
  let w := m.wAt wi
  let w1 := { w with educ := true, prod := w.prod * (1 + premium) }
  let w2 :=
    if w.employer.isSome then
      { w1 with wage := Firm.calc_wage (m.firms.getD (w.employer.getD 0) dF) w1 }
    else w1
  { m with workers := m.workers.set wi w2 }

/-- The benefit term of `Worker.education_decision` as the source
computes it: `prod * premium`, additionally scaled by
`1 - calc_avg_d weighted` when the worker's class is the literal `1`.
`none` propagates numpy's nan. -/
def Market.educ_benefit (m : Market) (wi : Nat) (premium : ℚ) (weighted : Bool) :
    Option ℚ :=
  let w := m.wAt wi
  let benefit := w.prod * premium
  if w.d_class = 1 then
    (m.calc_avg_d weighted).map (fun d => benefit * (1 - d))
  else
    some benefit

/-- Python's `>` on a possibly-nan left operand: false when the value is
nan (`none`). -/
def nanGT (b : Option ℚ) (c : ℚ) : Bool :=
  match b with
  | none => false
  | some x => decide (x > c)

/-- Python's `==` on a possibly-nan left operand: false when the value is
nan (`none`). -/
def nanEQ (b : Option ℚ) (c : ℚ) : Bool :=
  match b with
  | none => false
  | some x => decide (x = c)

/-- `Worker.education_decision` lifted to the market.  The cost term is
computed first, so a zero-productivity worker raises
`ZeroDivisionError` (= `none`) before anything else; a nan benefit makes
both comparisons false, silently skipping education; on an exact tie the
`coin` draw decides. -/
def Market.education_decision (m : Market) (wi : Nat) (premium : ℚ)
    (weighted : Bool) (coin : Bool) : Option Market :=
  let w := m.wAt wi
  if w.prod = 0 then none
  else
    let cost := w.avg_prod ^ 2 * premium / w.prod
    let benefit := m.educ_benefit wi premium weighted
    if nanGT benefit cost then some (m.get_education wi premium)
    else if nanEQ benefit cost then
      if coin then some (m.get_education wi premium) else some m
    else some m

/-- `Worker.rank_firms`, with the `select_firms` random sample passed in:
one wage offer per sampled firm, and the first strictly-maximal offer
wins.  `none` models the `ValueError` of `max []`. -/
def Market.rank_firms (m : Market) (wi : Nat) (sample : List Nat) :
    Option (Nat × ℚ) :=
  let w := m.wAt wi
  let wages := sample.map (fun fi => Firm.calc_wage (m.firms.getD fi dF) w)
  match firstMaxIdx wages with
  | none => none
  | some k => some (sample.getD k 0, wages.getD k 0)

/-- `Worker.firm_selection` lifted to the market: mark `search`, rank the
sampled firms, and on a strictly better best offer assign the undeclared
`switched` attribute, overwrite `wage`, and switch employer. -/
def Market.firm_selection (m : Market) (wi : Nat) (sample : List Nat) :
    Option Market :=
  let m1 := { m with workers := m.workers.set wi { m.wAt wi with search := true } }
  match m1.rank_firms wi sample with
  | none => none
  | some fw =>
    let w := m1.wAt wi
    if fw.2 > w.wage then
      let m2 := { m1 with
        workers := m1.workers.set wi { w with switched := some true, wage := fw.2 } }
      some (m2.switch_employer wi fw.1)
    else
      some m1

/-- Body of the initial-assignment loop of `Market.setup` for index `i`:
the worker's employer triple is set from the pre-hire firm (so the cached
size is the size before hiring), the firm hires the worker, and the wage
is set from the firm's offer. -/
def Market.setupStep (m : Market) (i : Nat) : Market :=
  let w := m.wAt i
  let f := m.fAt i
  let m1 := { m with workers := m.workers.set i (w.update_employer (some (i, f.size))) }
  let f1 := Firm.hire m1.dclassOf (m1.firms.getD i dF) i
  let m2 := { m1 with firms := m1.firms.set i f1 }
  let w2 := m2.wAt i
  { m2 with workers := m2.workers.set i { w2 with wage := Firm.calc_wage (m2.fAt i) w2 } }

/-- `for i in range k` over `setupStep`. -/
def Market.setupLoop (m : Market) : Nat → Market
  | 0 => m
  | k + 1 => (m.setupLoop k).setupStep k

/-- `Market.setup`: build `n_workers` workers and `2 * n_workers + 1`
firms from the drawn class/productivity/discount lists, then run the
initial one-to-one assignment loop. -/
def Market.setup (p : Params) (dcs : List Nat) (prods : List ℤ) (dfs : List ℚ) :
    Market :=
  let m0 : Market :=
    { p := p
      workers := (List.range p.n_workers).map
        (fun i => Worker.setup p (dcs.getD i 0) (prods.getD i 0))
      firms := (List.range (2 * p.n_workers + 1)).map
        (fun i => Firm.setup p (dfs.getD i 0))
      workerLog := []
      firmLog := [] }
  m0.setupLoop p.n_workers

/-- The education phase of `Market.step`: each active worker whose
`educ` flag is still false runs `education_decision`. -/
def Market.educPhase (premium : ℚ) (weighted : Bool) (coins : Nat → Bool) :
    Market → List Nat → Option Market
  | m, [] => some m
  | m, wi :: rest =>
    if (m.wAt wi).educ = false then
      match m.education_decision wi premium weighted (coins wi) with
      | none => none
      | some m1 => educPhase premium weighted coins m1 rest
    else
      educPhase premium weighted coins m rest

/-- The search phase of `Market.step`: each active worker runs
`firm_selection` on its drawn firm sample. -/
def Market.selPhase (samples : Nat → List Nat) :
    Market → List Nat → Option Market
  | m, [] => some m
  | m, wi :: rest =>
    match m.firm_selection wi (samples wi) with
    | none => none
    | some m1 => selPhase samples m1 rest

/-- The employer-size refresh `self.workers.employer_size =
self.workers.employer.size`.  (The source reads `worker.employer.size`
unconditionally; on the reachable states every worker is employed, so
the `Option.map` below agrees with it.) -/
def refreshMarket (m2 : Market) : Market :=
  { m2 with workers := m2.workers.map (fun w =>
    { w with employer_size := w.employer.map (fun ei => (m2.firms.getD ei dF).size) }) }

/-- The tail of `Market.step` after the search phase: refresh every
worker's cached employer size, then let every firm produce and compute
profit. -/
def Market.postStep (m2 : Market) : Market :=
  let m3 := refreshMarket m2
  let m4 := { m3 with firms := m3.firms.map (Firm.produce m3.wAt) }
  { m4 with firms := m4.firms.map (Firm.calc_profit m4.wAt) }

/-- `Market.step`: reset the per-step flags, run the education and
search phases over the drawn active subset, then run `postStep`. -/
def Market.step (m : Market) (r : StepRand) : Option Market :=
  let resetW := m.workers.map (fun w => { w with search := false, switch := false })
  let m0 := { m with workers := resetW }
  match m0.educPhase m.p.premium m.p.weighted r.coins r.active with
  | none => none
  | some m1 =>
    match m1.selPhase r.samples r.active with
    | none => none
    | some m2 => some m2.postStep

/-- The per-worker dataset row `Market.update` records. -/
def Worker.record (w : Worker) : WorkerRow :=
  { d_class := w.d_class, prod := w.prod, hrs := w.hrs, employer := w.employer,
    employer_id := w.employer_id, employer_size := w.employer_size,
    wage := w.wage, educ := w.educ, search := w.search, switch := w.switch }

/-- The per-firm dataset row `Market.update` records. -/
def Firm.record (f : Firm) : FirmRow :=
  { d_factor := f.d_factor, size := f.size, size_0 := f.size_0, size_1 := f.size_1,
    output := f.output, output_0 := f.output_0, output_1 := f.output_1,
    costs := f.costs, revenue := f.revenue, profit := f.profit }

/-- `Market.update`: append one row per worker and one per firm to the
recorded series. -/
def Market.update (m : Market) : Market :=
  { m with workerLog := m.workerLog ++ [m.workers.map Worker.record]
           firmLog := m.firmLog ++ [m.firms.map Firm.record] }

/-- The per-step loop of the agentpy runner: `step` then `update`, once
per drawn `StepRand`. -/
def Market.runSteps : Market → List StepRand → Option Market
  | m, [] => some m
  | m, r :: rs =>
    match m.step r with
    | none => none
    | some m1 => runSteps m1.update rs

/-- A full run: `setup`, the initial `update`, then the step loop (one
`StepRand` per configured step). -/
def Market.run (p : Params) (dcs : List Nat) (prods : List ℤ) (dfs : List ℚ)
    (rands : List StepRand) : Option Market :=
  (Market.setup p dcs prods dfs).update.runSteps rands

/-- Modelled from the spec: the benefit term with the discount adjustment
keyed on the configured discriminated class (`d_class` option) instead of
a literal class, "further multiplied by `(1 − calc_avg_discount(weighted))`
if `characteristic_class` is the discriminated class". -/
def Market.educ_benefit_specified (m : Market) (wi : Nat) (premium : ℚ)
    (weighted : Bool) : Option ℚ :=
  let w := m.wAt wi
  let benefit := w.prod * premium
  if w.d_class = m.p.d_class then
    (m.calc_avg_d weighted).map (fun d => benefit * (1 - d))
  else
    some benefit

section ListHelpers

variable {α : Type _}

theorem getD_eq_of_lt (l : List α) (d : α) {i : Nat} (h : i < l.length) :
    l.getD i d = l[i] :=
  List.getD_eq_getElem l d h

theorem getD_mem_of_lt (l : List α) (d : α) {i : Nat} (h : i < l.length) :
    l.getD i d ∈ l := by
  rw [getD_eq_of_lt l d h]
  exact List.getElem_mem h

theorem getD_set_self (l : List α) (d a : α) {i : Nat} (h : i < l.length) :
    (l.set i a).getD i d = a := by
  simp [List.getD_eq_getElem?_getD, List.getElem?_set_self, h]

theorem getD_set_ne (l : List α) (d a : α) {i j : Nat} (h : i ≠ j) :
    (l.set i a).getD j d = l.getD j d := by
  simp [List.getD_eq_getElem?_getD, List.getElem?_set_ne h]

theorem mem_of_mem_set {l : List α} {i : Nat} {a b : α} (h : b ∈ l.set i a) :
    b = a ∨ b ∈ l := by
  induction l generalizing i with
  | nil => simp at h
  | cons x xs ih =>
    cases i with
    | zero =>
      rw [List.set_cons_zero] at h
      rcases List.mem_cons.mp h with h | h
      · exact Or.inl h
      · exact Or.inr (List.mem_cons_of_mem x h)
    | succ n =>
      rw [List.set_cons_succ] at h
      rcases List.mem_cons.mp h with h | h
      · exact Or.inr (h ▸ List.mem_cons_self x xs)
      · rcases ih h with h1 | h1
        · exact Or.inl h1
        · exact Or.inr (List.mem_cons_of_mem x h1)

theorem getD_map {β : Type _} (g : α → β) (l : List α) (d : α) {i : Nat}
    (h : i < l.length) : (l.map g).getD i (g d) = g (l.getD i d) := by
  rw [getD_eq_of_lt _ _ h, getD_eq_of_lt (l.map g) (g d) (by simpa using h)]
  simp

theorem getD_all_eq {l : List α} {c : α} (h : ∀ x ∈ l, x = c) (i : Nat) :
    l.getD i c = c := by
  by_cases hi : i < l.length
  · exact h _ (getD_mem_of_lt l c hi)
  · simp [List.getD_eq_getElem?_getD, List.getElem?_eq_none (Nat.le_of_not_lt hi)]

theorem length_pos_of_mem {l : List α} {a : α} (h : a ∈ l) : 0 < l.length :=
  List.length_pos.mpr (List.ne_nil_of_mem h)

theorem sum_map_const_nat {β : Type _} (l : List β) (g : β → ℚ) (c : ℚ)
    (h : ∀ x ∈ l, g x = c) : (l.map g).sum = l.length * c := by
  induction l with
  | nil => simp
  | cons x xs ih =>
    have hx := h x (List.mem_cons_self x xs)
    have hrest := ih (fun y hy => h y (List.mem_cons_of_mem x hy))
    simp [hx, hrest]
    ring

end ListHelpers

/-!
## C4 — wage-offer formula and purity of `calc_wage`

`Firm.calc_wage` is embedded as a pure function (the source computes a
local value and returns it, assigning no attribute), so the no-mutation
half of the claim holds by construction; the theorem settles the value
half.
-/

/-- C4: for every firm `F` and worker `W`, `calc_wage` returns
`price × productivity × (1 − discount_factor)` when the worker's class is
the firm's flagged class, and `price × productivity` otherwise. -/
theorem calc_wage_spec (f : Firm) (w : Worker) :
    (w.d_class = f.d_class → f.calc_wage w = f.price * w.prod * (1 - f.d_factor)) ∧
    (w.d_class ≠ f.d_class → f.calc_wage w = f.price * w.prod) := by
  constructor <;> intro h <;> simp [Firm.calc_wage, h]

/-- Concrete firm used by witnesses: price 1, discount 1/4, flagged class 1. -/
def fW : Firm := { dF with price := 1, d_factor := 1/4, d_class := 1 }

/-- Concrete flagged-class worker used by witnesses. -/
def wFlag : Worker := { dW with prod := 8, d_class := 1 }

/-- Concrete unflagged worker used by witnesses. -/
def wPlain : Worker := { dW with prod := 8, d_class := 0 }

/-- Witness for C4 at a concrete flagged and a concrete unflagged worker. -/
theorem calc_wage_spec_witness :
    fW.calc_wage wFlag = fW.price * wFlag.prod * (1 - fW.d_factor) ∧
    fW.calc_wage wPlain = fW.price * wPlain.prod := by
  refine ⟨(calc_wage_spec fW wFlag).1 rfl, (calc_wage_spec fW wPlain).2 ?_⟩
  simp [fW, wPlain, dF, dW]

/-!
## C9 — `Market.update` is a pure read that emits one row per agent
-/

/-- C9: `update` appends exactly one dataset row per worker and one per
firm (each row the `record` transcription of that agent's listed fields)
and leaves the parameter set, every worker and every firm unchanged. -/
theorem update_pure_read (m : Market) :
    m.update.p = m.p ∧ m.update.workers = m.workers ∧ m.update.firms = m.firms ∧
    m.update.workerLog = m.workerLog ++ [m.workers.map Worker.record] ∧
    m.update.firmLog = m.firmLog ++ [m.firms.map Firm.record] ∧
    (m.workers.map Worker.record).length = m.workers.length ∧
    (m.firms.map Firm.record).length = m.firms.length := by
  refine ⟨rfl, rfl, rfl, rfl, rfl, ?_, ?_⟩ <;> simp

section RangeEval

theorem range_one : List.range 1 = [0] := rfl

theorem range_two : List.range 2 = [0, 1] := rfl

theorem range_three : List.range 3 = [0, 1, 2] := rfl

theorem range_five : List.range 5 = [0, 1, 2, 3, 4] := rfl

end RangeEval

/-!
## C10 — division by zero in `education_decision`

The cost term `avg_prod ** 2 * premium / prod` is evaluated first, so a
worker with zero productivity makes the call fail (`none`, Python's
`ZeroDivisionError`) before any decision is returned, while any nonzero
productivity yields a defined decision.  Zero productivity is reachable:
`setup` draws `prod` with `random.randint`, which includes both endpoints
of `prod_range`, so a lower bound of `0` admits the draw `0` (see the
witness, built through `Market.setup` with `prod_range_lo = 0`).
-/

/-- C10: `education_decision` returns a decision for every worker with
nonzero productivity and fails with a division-by-zero (`none`) for a
worker with zero productivity. -/
theorem education_decision_div_by_zero (m : Market) (wi : Nat) (premium : ℚ)
    (weighted : Bool) (coin : Bool) :
    ((m.wAt wi).prod ≠ 0 → (m.education_decision wi premium weighted coin).isSome) ∧
    ((m.wAt wi).prod = 0 → m.education_decision wi premium weighted coin = none) := by
  constructor <;> intro h
  · simp only [Market.education_decision, if_neg h]
    split_ifs <;> simp
  · simp [Market.education_decision, h]

/-- Configuration with a zero lower productivity bound, used to reach a
zero-productivity worker through `setup`. -/
def p10 : Params :=
  { n_workers := 1, prod_range_lo := 0, prod_range_hi := 20, d_range_lo := 0,
    d_range_hi := 1, premium := 1/5, weighted := true, d_class := 1,
    active := 1, sample := 1, steps := 1 }

/-- Market whose single worker drew productivity `0` (the inclusive lower
bound of `prod_range`). -/
def m10 : Market := Market.setup p10 [1] [0] [0, 0, 0]

/-- Market whose single worker drew productivity `15`. -/
def m10b : Market := Market.setup p10 [1] [15] [0, 0, 0]

/-- Witness for C10: the zero draw makes `education_decision` fail, the
nonzero draw makes it return a decision. -/
theorem education_decision_div_by_zero_witness :
    ((m10.wAt 0).prod = 0 ∧ m10.education_decision 0 (1/5) true true = none) ∧
    ((m10b.wAt 0).prod ≠ 0 ∧ (m10b.education_decision 0 (1/5) true true).isSome) := by
  have h0 : (m10.wAt 0).prod = 0 := by
    norm_num [m10, p10, range_one, range_three, Market.setup, Market.setupLoop,
      Market.setupStep, Market.wAt, Market.fAt, Market.dclassOf, Worker.setup,
      Firm.setup, Firm.hire, Firm.set_size, Firm.calc_wage, Worker.update_employer,
      dW, dF]
  have h1 : (m10b.wAt 0).prod ≠ 0 := by
    norm_num [m10b, p10, range_one, range_three, Market.setup, Market.setupLoop,
      Market.setupStep, Market.wAt, Market.fAt, Market.dclassOf, Worker.setup,
      Firm.setup, Firm.hire, Firm.set_size, Firm.calc_wage, Worker.update_employer,
      dW, dF]
  exact ⟨⟨h0, (education_decision_div_by_zero m10 0 (1/5) true true).2 h0⟩,
    ⟨h1, (education_decision_div_by_zero m10b 0 (1/5) true true).1 h1⟩⟩

/-!
## C6 — average discount over an empty active-firm set

The source has no explicit empty-set handling.  The weighted branch
happens to return the plain number `0` (an empty Python `sum`, with the
division never executed), but the unweighted branch is `numpy.mean []`,
which silently produces the non-numeric `nan` (modelled as `none`) —
contradicting the claim that both branches are explicitly handled.
-/

/-- Configuration with zero workers: all `2·0+1 = 1` firms stay empty, so
the active-firm set is empty from setup on. -/
def p6 : Params :=
  { n_workers := 0, prod_range_lo := 1, prod_range_hi := 20, d_range_lo := 0,
    d_range_hi := 1, premium := 1/5, weighted := true, d_class := 1,
    active := 1/2, sample := 10, steps := 1 }

/-- A reachable market state whose active-firm set is empty. -/
def m6 : Market := Market.setup p6 [] [] [1/2]

/-- Counterexample for C6: in a reachable state with no active firm, the
unweighted average is the silent non-numeric `nan` (`none`), not a defined
numeric result or error signal. -/
theorem calc_avg_d_empty_counterexample :
    (∀ f ∈ m6.firms, ¬ 0 < f.size) ∧ m6.calc_avg_d false = none := by
  constructor
  · intro f hf
    norm_num [m6, p6, range_one, Market.setup, Market.setupLoop, Firm.setup] at hf
    simp [hf, Firm.setup]
  · norm_num [m6, p6, range_one, Market.setup, Market.setupLoop, Firm.setup,
      Market.calc_avg_d, npMean]

/-- C6 as amended: with no active firm, the weighted average returns the
(accidentally defined) numeric `0` because the empty sum never divides,
while the unweighted average silently yields numpy's non-numeric `nan`
(`none`) with no explicit handling. -/
theorem calc_avg_d_empty_amended (m : Market)
    (h : ∀ f ∈ m.firms, ¬ 0 < f.size) :
    m.calc_avg_d true = some 0 ∧ m.calc_avg_d false = none := by
  have hf : m.firms.filter (fun f => decide (0 < f.size)) = [] := by
    rw [List.filter_eq_nil_iff]
    intro f hfm
    simpa using h f hfm
  simp [Market.calc_avg_d, hf, npMean]

/-- Witness for C6's amended claim at the reachable empty market. -/
theorem calc_avg_d_empty_amended_witness :
    m6.calc_avg_d true = some 0 ∧ m6.calc_avg_d false = none := by
  refine calc_avg_d_empty_amended m6 ?_
  intro f hf
  norm_num [m6, p6, range_one, Market.setup, Market.setupLoop, Firm.setup] at hf
  simp [hf, Firm.setup]

/-!
## C2 — which class's education benefit is discounted

`education_decision` tests `self.d_class == 1` — the literal class `1` —
while the configured option (`d_class`, replicated into every firm and
honoured by `calc_wage`) may name either class.  With `d_class = 0`
configured, a class-0 worker's benefit is left unadjusted although the
spec says it is the discriminated class.
-/

/-- Configuration that flags class `0` as the discriminated class. -/
def p2c : Params :=
  { n_workers := 1, prod_range_lo := 10, prod_range_hi := 10, d_range_lo := 0,
    d_range_hi := 1, premium := 1, weighted := false, d_class := 0,
    active := 1, sample := 1, steps := 1 }

/-- Market with one class-0 worker employed at a firm with discount
factor `1/2`, under configured `d_class = 0`. -/
def m2c : Market := Market.setup p2c [0] [10] [1/2, 0, 0]

/-- Counterexample for C2: with `d_class = 0` configured and a class-0
worker, the code leaves the benefit at `10` while the configured-class
rule of the claim demands the adjusted `10 · (1 − 1/2) = 5`. -/
theorem education_benefit_config_counterexample :
    m2c.p.d_class = 0 ∧ (m2c.wAt 0).d_class = 0 ∧
    m2c.calc_avg_d false = some (1/2) ∧
    m2c.educ_benefit 0 1 false = some 10 ∧
    m2c.educ_benefit_specified 0 1 false = some 5 ∧
    m2c.educ_benefit 0 1 false ≠ m2c.educ_benefit_specified 0 1 false := by
  norm_num [m2c, p2c, range_one, range_three, Market.setup, Market.setupLoop,
    Market.setupStep, Market.wAt, Market.fAt, Market.dclassOf, Worker.setup,
    Firm.setup, Firm.hire, Firm.set_size, Firm.calc_wage, Worker.update_employer,
    Market.educ_benefit, Market.educ_benefit_specified, Market.calc_avg_d, npMean,
    dW, dF]

/-- C2 as amended: the benefit adjustment is keyed on the literal class
`1`, so a worker of any other class always keeps the plain benefit, and
the code agrees with the spec's configured-class rule exactly when the
configured `d_class` is `1` (as in every shipped configuration). -/
theorem education_benefit_literal_class (m : Market) (wi : Nat) (premium : ℚ)
    (weighted : Bool) :
    (m.p.d_class = 1 →
      m.educ_benefit wi premium weighted = m.educ_benefit_specified wi premium weighted) ∧
    ((m.wAt wi).d_class ≠ 1 →
      m.educ_benefit wi premium weighted = some ((m.wAt wi).prod * premium)) := by
  constructor <;> intro h
  · simp [Market.educ_benefit, Market.educ_benefit_specified, h]
  · simp [Market.educ_benefit, h]

/-- Witness for C2's amended claim: agreement with the spec rule under
configured `d_class = 1`, and an unadjusted benefit for a class-0
worker. -/
theorem education_benefit_literal_class_witness :
    m10.educ_benefit 0 (1/5) true = m10.educ_benefit_specified 0 (1/5) true ∧
    m2c.educ_benefit 0 1 false = some ((m2c.wAt 0).prod * 1) := by
  refine ⟨(education_benefit_literal_class m10 0 (1/5) true).1 rfl,
    (education_benefit_literal_class m2c 0 1 false).2 ?_⟩
  norm_num [m2c, p2c, range_one, Market.setup, Market.setupLoop, Market.setupStep,
    Market.wAt, Market.fAt, Market.dclassOf, Worker.setup, Firm.setup, Firm.hire,
    Firm.set_size, Firm.calc_wage, Worker.update_employer, dW, dF]

/-!
## C1 — the per-step `switch` flag is never the one `firm_selection` sets

`setup` declares `switch`, `Market.step` resets `search`/`switch`, and
`Market.update` records `search`/`switch`; but `firm_selection` assigns
`switched`, an attribute declared nowhere.  The repository's own test
(`test_firm_selection`) asserts `worker.switch` is true after a switch,
which the code violates: the recorded `switch` flag stays false on a step
in which the worker demonstrably switched employers.
-/

/-- Single-worker configuration for the C1 run. -/
def p1c : Params :=
  { n_workers := 1, prod_range_lo := 10, prod_range_hi := 10, d_range_lo := 0,
    d_range_hi := 1, premium := 0, weighted := false, d_class := 1,
    active := 1, sample := 1, steps := 1 }

/-- Step draws for the C1 run: worker 0 active, indifference coin false,
firm sample `[1]`. -/
def r1c : StepRand :=
  { active := [0], coins := fun _ => false, samples := fun _ => [1] }

/-- C1, evaluated at the failing input: worker 0 (flagged class, employer
firm 0 at discounted wage 5) is offered wage 10 by firm 1 and switches —
the post-step state has `employer = 1` and the undeclared `switched`
attribute set — yet the declared flag `switch` and the `switch` field of
the recorded post-step row are still `false`, while `search` records
correctly. -/
theorem firm_selection_switch_flag_eval :
    (Market.run p1c [1] [10] [1/2, 0, 0] [r1c]).map
      (fun m => ((m.wAt 0).employer, (m.wAt 0).wage, (m.wAt 0).switched,
                 (m.wAt 0).search, (m.wAt 0).switch,
                 ((m.workerLog.getD 1 []).getD 0 (Worker.record dW)).search,
                 ((m.workerLog.getD 1 []).getD 0 (Worker.record dW)).switch)) =
      some (some 1, 10, some true, true, false, true, false) := by
  norm_num [p1c, r1c, range_one, range_three, Market.run, Market.setup,
    Market.setupLoop, Market.setupStep, Market.runSteps, Market.update, Market.step,
    Market.postStep, refreshMarket, Market.educPhase, Market.selPhase, Market.education_decision, nanGT, nanEQ, Market.educ_benefit,
    Market.calc_avg_d, npMean, Market.rank_firms, firstMaxIdx, firstMaxIdxA, Market.firm_selection,
    Market.switch_employer, Market.separate_from_employer, Market.get_education, Worker.record, Firm.record,
    Firm.produce, Firm.calc_profit, Firm.separate, Firm.hire, Firm.set_size,
    Firm.calc_wage, Worker.setup, Firm.setup, Worker.update_employer, Market.wAt,
    Market.fAt, Market.dclassOf, dW, dF]

section MoreListHelpers

variable {α : Type _}

theorem mem_iff_getD (d : α) {l : List α} {a : α} :
    a ∈ l ↔ ∃ i, i < l.length ∧ l.getD i d = a := by
  rw [List.mem_iff_getElem]
  constructor
  · rintro ⟨i, h, rfl⟩
    exact ⟨i, h, getD_eq_of_lt l d h⟩
  · rintro ⟨i, h, rfl⟩
    exact ⟨i, h, (getD_eq_of_lt l d h).symm⟩

theorem set_of_le_length {l : List α} {i : Nat} (a : α) (h : l.length ≤ i) :
    l.set i a = l := by
  induction l generalizing i with
  | nil => simp
  | cons x xs ih =>
    cases i with
    | zero => simp at h
    | succ n => simp [List.set_cons_succ, ih (Nat.le_of_succ_le_succ h)]

theorem getD_map_lt {β : Type _} (g : α → β) (l : List α) (d : α) (d' : β) {i : Nat}
    (h : i < l.length) : (l.map g).getD i d' = g (l.getD i d) := by
  rw [getD_eq_of_lt _ _ (by simpa using h), getD_eq_of_lt _ _ h, List.getElem_map]

theorem getD_of_ge (l : List α) (d : α) {i : Nat} (h : l.length ≤ i) :
    l.getD i d = d := by
  simp [List.getD_eq_getElem?_getD, List.getElem?_eq_none h]

theorem getD_nat_le {l : List Nat} {c : Nat} (h : ∀ x ∈ l, x ≤ c) (i : Nat) :
    l.getD i 0 ≤ c := by
  by_cases hi : i < l.length
  · exact h _ (getD_mem_of_lt l 0 hi)
  · rw [getD_of_ge l 0 (Nat.le_of_not_lt hi)]
    exact Nat.zero_le c

end MoreListHelpers

section FirstMaxIdxFacts

theorem firstMaxIdxA_le_length (x : ℚ) (t : List ℚ) :
    firstMaxIdxA x t ≤ t.length := by
  induction t generalizing x with
  | nil => simp [firstMaxIdxA]
  | cons y t ih =>
    simp only [firstMaxIdxA]
    split
    · simpa using Nat.succ_le_succ (ih y)
    · simp

theorem firstMaxIdxA_max (x : ℚ) (t : List ℚ) :
    ∀ i, i < t.length + 1 → (x :: t).getD i 0 ≤ (x :: t).getD (firstMaxIdxA x t) 0 := by
  induction t generalizing x with
  | nil =>
    intro i hi
    simp only [List.length_nil, Nat.zero_add] at hi
    have : i = 0 := Nat.lt_one_iff.mp hi
    subst this
    simp [firstMaxIdxA]
  | cons y t ih =>
    intro i hi
    simp only [firstMaxIdxA]
    by_cases hc : (y :: t).getD (firstMaxIdxA y t) 0 > x
    · rw [if_pos hc]
      cases i with
      | zero => simpa using le_of_lt hc
      | succ i' => simpa using ih y i' (by simpa using hi)
    · rw [if_neg hc]
      cases i with
      | zero => simp
      | succ i' =>
        have h1 := ih y i' (by simpa using hi)
        simp only [List.getD_cons_succ, List.getD_cons_zero]
        exact le_trans h1 (le_of_not_lt hc)

theorem firstMaxIdxA_strict (x : ℚ) (t : List ℚ) :
    ∀ i, i < firstMaxIdxA x t → (x :: t).getD i 0 < (x :: t).getD (firstMaxIdxA x t) 0 := by
  induction t generalizing x with
  | nil => intro i hi; simp [firstMaxIdxA] at hi
  | cons y t ih =>
    intro i hi
    simp only [firstMaxIdxA] at hi ⊢
    by_cases hc : (y :: t).getD (firstMaxIdxA y t) 0 > x
    · rw [if_pos hc] at hi ⊢
      cases i with
      | zero => simpa using hc
      | succ i' =>
        simp only [List.getD_cons_succ]
        exact ih y i' (by omega)
    · rw [if_neg hc] at hi
      exact absurd hi (Nat.not_lt_zero i)

theorem firstMaxIdx_isSome {xs : List ℚ} (h : xs ≠ []) :
    (firstMaxIdx xs).isSome := by
  cases xs with
  | nil => simp at h
  | cons x t => simp [firstMaxIdx]

theorem firstMaxIdx_lt {xs : List ℚ} {k : Nat} (h : firstMaxIdx xs = some k) :
    k < xs.length := by
  cases xs with
  | nil => simp [firstMaxIdx] at h
  | cons x t =>
    obtain rfl : firstMaxIdxA x t = k := by simpa [firstMaxIdx] using h
    simpa using Nat.lt_succ_of_le (firstMaxIdxA_le_length x t)

theorem firstMaxIdx_le {xs : List ℚ} {k : Nat} (h : firstMaxIdx xs = some k) :
    ∀ i, i < xs.length → xs.getD i 0 ≤ xs.getD k 0 := by
  cases xs with
  | nil => simp [firstMaxIdx] at h
  | cons x t =>
    obtain rfl : firstMaxIdxA x t = k := by simpa [firstMaxIdx] using h
    intro i hi
    exact firstMaxIdxA_max x t i (by simpa using hi)

theorem firstMaxIdx_first {xs : List ℚ} {k : Nat} (h : firstMaxIdx xs = some k) :
    ∀ i, i < k → xs.getD i 0 < xs.getD k 0 := by
  cases xs with
  | nil => simp [firstMaxIdx] at h
  | cons x t =>
    obtain rfl : firstMaxIdxA x t = k := by simpa [firstMaxIdx] using h
    exact firstMaxIdxA_strict x t

end FirstMaxIdxFacts

/-!
## Reachable-state invariant

The bidirectional worker/firm consistency the hire/separate/switch
operations maintain, together with the derived size fields.
-/

/-- The invariant of reachable boundary states: population sizes match
the configuration, every characteristic class is binary, every worker is
employed, roster membership and the `employer` back-reference agree,
rosters are duplicate-free, and the stored size fields are consistent
with the rosters. -/
structure Market.Inv (m : Market) : Prop where
  wlen : m.workers.length = m.p.n_workers
  flen : m.firms.length = 2 * m.p.n_workers + 1
  dcl_le : ∀ w ∈ m.workers, w.d_class ≤ 1
  employed : ∀ wi, wi < m.workers.length →
    ∃ fi, fi < m.firms.length ∧ (m.wAt wi).employer = some fi
  member_iff : ∀ fi, fi < m.firms.length → ∀ wi,
    (wi ∈ (m.fAt fi).employees ↔
      wi < m.workers.length ∧ (m.wAt wi).employer = some fi)
  nodup : ∀ f ∈ m.firms, f.employees.Nodup
  size_eq : ∀ f ∈ m.firms, f.size = f.employees.length
  size_split : ∀ f ∈ m.firms, f.size = f.size_0 + f.size_1

theorem Inv_of_worker_pointwise {m m' : Market} (hInv : m.Inv)
    (hp : m'.p = m.p) (hf : m'.firms = m.firms)
    (hlen : m'.workers.length = m.workers.length)
    (hemp : ∀ i, i < m.workers.length → (m'.wAt i).employer = (m.wAt i).employer)
    (hdc : ∀ i, i < m.workers.length → (m'.wAt i).d_class = (m.wAt i).d_class) :
    m'.Inv := by
  constructor
  · rw [hlen, hp]
    exact hInv.wlen
  · rw [hf, hp]
    exact hInv.flen
  · intro w hw
    rw [mem_iff_getD dW] at hw
    obtain ⟨i, hi, rfl⟩ := hw
    have hi' : i < m.workers.length := hlen ▸ hi
    have : (m'.wAt i).d_class = (m.wAt i).d_class := hdc i hi'
    rw [Market.wAt] at this
    rw [this]
    exact hInv.dcl_le _ (getD_mem_of_lt _ _ hi')
  · intro wi hwi
    have hwi' : wi < m.workers.length := hlen ▸ hwi
    obtain ⟨fi, hfl, he⟩ := hInv.employed wi hwi'
    exact ⟨fi, hf ▸ hfl, by rw [hemp wi hwi']; exact he⟩
  · intro fi hfl wi
    have hfl' : fi < m.firms.length := hf ▸ hfl
    have hfa : m'.fAt fi = m.fAt fi := by
      rw [Market.fAt, Market.fAt, hf]
    rw [hfa, hlen]
    rcases Nat.lt_or_ge wi m.workers.length with hw | hw
    · rw [hemp wi hw]
      exact hInv.member_iff fi hfl' wi
    · have hmi := hInv.member_iff fi hfl' wi
      constructor
      · intro hmem
        exact absurd (hmi.mp hmem).1 (Nat.not_lt.mpr hw)
      · rintro ⟨h1, _⟩
        exact absurd h1 (Nat.not_lt.mpr hw)
  · intro f hfm
    rw [hf] at hfm
    exact hInv.nodup f hfm
  · intro f hfm
    rw [hf] at hfm
    exact hInv.size_eq f hfm
  · intro f hfm
    rw [hf] at hfm
    exact hInv.size_split f hfm

theorem Inv_worker_map {m : Market} (hInv : m.Inv) (g : Worker → Worker)
    (hg : ∀ w, (g w).employer = w.employer ∧ (g w).d_class = w.d_class) :
    Market.Inv { m with workers := m.workers.map g } := by
  refine Inv_of_worker_pointwise hInv rfl rfl (by simp) ?_ ?_ <;> intro i hi
  · show ((m.workers.map g).getD i dW).employer = _
    rw [getD_map_lt g m.workers dW dW hi]
    exact (hg _).1
  · show ((m.workers.map g).getD i dW).d_class = _
    rw [getD_map_lt g m.workers dW dW hi]
    exact (hg _).2

theorem Inv_worker_set {m : Market} (hInv : m.Inv) {wi : Nat} {w' : Worker}
    (hemp : w'.employer = (m.wAt wi).employer)
    (hdc : w'.d_class = (m.wAt wi).d_class) :
    Market.Inv { m with workers := m.workers.set wi w' } := by
  refine Inv_of_worker_pointwise hInv rfl rfl (by simp) ?_ ?_ <;> intro i hi
  · show ((m.workers.set wi w').getD i dW).employer = _
    by_cases h : wi = i
    · subst h
      rw [getD_set_self _ _ _ hi, hemp]
    · rw [getD_set_ne _ _ _ h]
      rfl
  · show ((m.workers.set wi w').getD i dW).d_class = _
    by_cases h : wi = i
    · subst h
      rw [getD_set_self _ _ _ hi, hdc]
    · rw [getD_set_ne _ _ _ h]
      rfl

theorem Inv_firm_map {m : Market} (hInv : m.Inv) (g : Firm → Firm)
    (hg : ∀ f, (g f).employees = f.employees ∧ (g f).size = f.size ∧
      (g f).size_0 = f.size_0 ∧ (g f).size_1 = f.size_1) :
    Market.Inv { m with firms := m.firms.map g } := by
  constructor
  · exact hInv.wlen
  · simpa using hInv.flen
  · exact hInv.dcl_le
  · intro wi hwi
    obtain ⟨fi, h1, h2⟩ := hInv.employed wi hwi
    exact ⟨fi, by simpa using h1, h2⟩
  · intro fi hfl wi
    have hfl' : fi < m.firms.length := by simpa using hfl
    have hfa : ({ m with firms := m.firms.map g } : Market).fAt fi = g (m.fAt fi) := by
      show (m.firms.map g).getD fi dF = _
      rw [getD_map_lt g m.firms dF dF hfl']
      rfl
    rw [hfa, (hg _).1]
    exact hInv.member_iff fi hfl' wi
  · intro f hfm
    obtain ⟨f0, hf0, rfl⟩ := List.mem_map.mp hfm
    rw [(hg f0).1]
    exact hInv.nodup f0 hf0
  · intro f hfm
    obtain ⟨f0, hf0, rfl⟩ := List.mem_map.mp hfm
    rw [(hg f0).2.1, (hg f0).1]
    exact hInv.size_eq f0 hf0
  · intro f hfm
    obtain ⟨f0, hf0, rfl⟩ := List.mem_map.mp hfm
    rw [(hg f0).2.1, (hg f0).2.2.1, (hg f0).2.2.2]
    exact hInv.size_split f0 hf0

theorem Inv_update {m : Market} (hInv : m.Inv) : m.update.Inv := by
  obtain ⟨a, b, c, d, e, f, g, h⟩ := hInv
  exact ⟨a, b, c, d, e, f, g, h⟩

section FirmOpFacts

theorem set_size_employees (dcl : Nat → Nat) (f : Firm) :
    (Firm.set_size dcl f).employees = f.employees := rfl

theorem hire_employees (dcl : Nat → Nat) (f : Firm) (w : Nat) :
    (Firm.hire dcl f w).employees =
      if w ∈ f.employees then f.employees else f.employees ++ [w] := by
  unfold Firm.hire
  split <;> rfl

theorem separate_employees (dcl : Nat → Nat) (f : Firm) (w : Nat) :
    (Firm.separate dcl f w).employees = f.employees.erase w := rfl

theorem hire_size (dcl : Nat → Nat) (f : Firm) (w : Nat) :
    (Firm.hire dcl f w).size = (Firm.hire dcl f w).employees.length := rfl

theorem separate_size (dcl : Nat → Nat) (f : Firm) (w : Nat) :
    (Firm.separate dcl f w).size = (Firm.separate dcl f w).employees.length := rfl

theorem length_filter_pair {l : List Nat} {dcl : Nat → Nat}
    (h : ∀ e ∈ l, dcl e ≤ 1) :
    l.length = (l.filter (fun i => dcl i = 1)).length +
      (l.filter (fun i => dcl i = 0)).length := by
  induction l with
  | nil => simp
  | cons x xs ih =>
    have hx := h x (List.mem_cons_self x xs)
    have ht := ih (fun e he => h e (List.mem_cons_of_mem x he))
    rcases Nat.le_one_iff_eq_zero_or_eq_one.mp hx with h0 | h1
    · simp only [List.length_cons, List.filter_cons, h0]
      norm_num
      omega
    · simp only [List.length_cons, List.filter_cons, h1]
      norm_num
      omega

theorem set_size_split (dcl : Nat → Nat) (f : Firm)
    (h : ∀ e ∈ f.employees, dcl e ≤ 1) :
    (Firm.set_size dcl f).size =
      (Firm.set_size dcl f).size_0 + (Firm.set_size dcl f).size_1 := by
  show f.employees.length = _ + _
  rw [length_filter_pair h]
  exact Nat.add_comm _ _

theorem hire_split (dcl : Nat → Nat) (f : Firm) (w : Nat)
    (h : ∀ e ∈ f.employees, dcl e ≤ 1) (hw : dcl w ≤ 1) :
    (Firm.hire dcl f w).size =
      (Firm.hire dcl f w).size_0 + (Firm.hire dcl f w).size_1 := by
  unfold Firm.hire
  apply set_size_split
  intro e he
  by_cases hmem : w ∈ f.employees
  · rw [if_pos hmem] at he
    exact h e he
  · rw [if_neg hmem] at he
    rcases List.mem_append.mp he with h1 | h1
    · exact h e h1
    · rw [List.mem_singleton.mp h1]
      exact hw

theorem separate_split (dcl : Nat → Nat) (f : Firm) (w : Nat)
    (h : ∀ e ∈ f.employees, dcl e ≤ 1) :
    (Firm.separate dcl f w).size =
      (Firm.separate dcl f w).size_0 + (Firm.separate dcl f w).size_1 := by
  unfold Firm.separate
  apply set_size_split
  intro e he
  exact h e (List.mem_of_mem_erase he)

theorem nodup_append_singleton {l : List Nat} {a : Nat} (h : l.Nodup)
    (ha : a ∉ l) : (l ++ [a]).Nodup := by
  rw [List.nodup_append]
  refine ⟨h, List.nodup_singleton a, ?_⟩
  intro x hx hxa
  rw [List.mem_singleton] at hxa
  exact ha (hxa ▸ hx)

end FirmOpFacts

/-- Full account of one `switch_employer` call from an invariant state:
the invariant is preserved, the switching worker's employer reference
moves to the target firm with all other worker fields untouched, and
every other worker is untouched. -/
theorem Inv_switch_employer {m : Market} (hInv : m.Inv) {wi fi : Nat}
    (hwi : wi < m.workers.length) (hfi : fi < m.firms.length) :
    (m.switch_employer wi fi).Inv ∧
    (m.switch_employer wi fi).p = m.p ∧
    (m.switch_employer wi fi).workers.length = m.workers.length ∧
    (m.switch_employer wi fi).firms.length = m.firms.length ∧
    ((m.switch_employer wi fi).wAt wi).employer = some fi ∧
    ((m.switch_employer wi fi).wAt wi).wage = (m.wAt wi).wage ∧
    ((m.switch_employer wi fi).wAt wi).prod = (m.wAt wi).prod ∧
    ((m.switch_employer wi fi).wAt wi).educ = (m.wAt wi).educ ∧
    ((m.switch_employer wi fi).wAt wi).d_class = (m.wAt wi).d_class ∧
    (∀ j, j ≠ wi → (m.switch_employer wi fi).wAt j = m.wAt j) := by
  obtain ⟨ei, hei, hempl⟩ := hInv.employed wi hwi
  set F1 := Firm.separate m.dclassOf (m.firms.getD ei dF) wi with hF1
  set G1 := m.firms.set ei F1 with hG1
  set B := G1.getD fi dF with hB
  set F2 := Firm.hire m.dclassOf B wi with hF2
  set G2 := G1.set fi F2 with hG2
  set W2 := (m.wAt wi).update_employer (some (fi, (G2.getD fi dF).size)) with hW2
  have hswitch : m.switch_employer wi fi =
      { m with workers := m.workers.set wi W2, firms := G2 } := by
    unfold Market.switch_employer Market.separate_from_employer
    rw [hempl]
    rfl
  have hG1len : G1.length = m.firms.length := by rw [hG1]; simp
  have hG2len : G2.length = m.firms.length := by rw [hG2]; simp [hG1len]
  have hdcl_lt : ∀ x, x < m.workers.length → m.dclassOf x ≤ 1 := by
    intro x hx
    exact hInv.dcl_le _ (getD_mem_of_lt _ _ hx)
  have hndei : (m.fAt ei).employees.Nodup := hInv.nodup _ (getD_mem_of_lt _ _ hei)
  have hF1emp : F1.employees = (m.fAt ei).employees.erase wi := by rw [hF1]; rfl
  have hF1nodup : F1.employees.Nodup := by
    rw [hF1emp]
    exact hndei.erase wi
  have hF1mem : ∀ x, x ∈ F1.employees ↔ x ≠ wi ∧ x ∈ (m.fAt ei).employees := by
    intro x
    rw [hF1emp]
    exact hndei.mem_erase_iff
  have hF1size : F1.size = F1.employees.length := by
    rw [hF1]
    exact separate_size _ _ _
  have hF1split : F1.size = F1.size_0 + F1.size_1 := by
    rw [hF1]
    exact separate_split _ _ _
      (fun e he => hdcl_lt e ((hInv.member_iff ei hei e).mp he).1)
  have hBcase : B = if fi = ei then F1 else m.fAt fi := by
    rw [hB, hG1]
    by_cases h : fi = ei
    · cases h
      rw [if_pos rfl]
      exact getD_set_self _ _ _ hei
    · rw [if_neg h]
      exact getD_set_ne _ _ _ (fun hh => h hh.symm)
  have hBmem : ∀ x, x ∈ B.employees ↔
      (x ≠ wi ∧ x < m.workers.length ∧ (m.wAt x).employer = some fi) := by
    intro x
    rw [hBcase]
    by_cases h : fi = ei
    · cases h
      rw [if_pos rfl, hF1mem x]
      constructor
      · rintro ⟨hne, hmem⟩
        obtain ⟨h1, h2⟩ := (hInv.member_iff _ hei x).mp hmem
        exact ⟨hne, h1, h2⟩
      · rintro ⟨hne, h1, h2⟩
        exact ⟨hne, (hInv.member_iff _ hei x).mpr ⟨h1, h2⟩⟩
    · rw [if_neg h, hInv.member_iff fi hfi x]
      constructor
      · rintro ⟨h1, h2⟩
        refine ⟨?_, h1, h2⟩
        rintro rfl
        rw [hempl] at h2
        exact h (Option.some_inj.mp h2).symm
      · rintro ⟨_, h1, h2⟩
        exact ⟨h1, h2⟩
  have hBnodup : B.employees.Nodup := by
    rw [hBcase]
    by_cases h : fi = ei
    · cases h
      rw [if_pos rfl]
      exact hF1nodup
    · rw [if_neg h]
      exact hInv.nodup _ (getD_mem_of_lt _ _ hfi)
  have hBwi : wi ∉ B.employees := by
    intro hx
    exact ((hBmem wi).mp hx).1 rfl
  have hBd : ∀ e ∈ B.employees, m.dclassOf e ≤ 1 := by
    intro e he
    exact hdcl_lt e ((hBmem e).mp he).2.1
  have hF2emp : F2.employees = B.employees ++ [wi] := by
    rw [hF2, hire_employees, if_neg hBwi]
  have hF2mem : ∀ x, x ∈ F2.employees ↔
      ((x ≠ wi ∧ x < m.workers.length ∧ (m.wAt x).employer = some fi) ∨ x = wi) := by
    intro x
    rw [hF2emp, List.mem_append, List.mem_singleton, hBmem]
  have hF2nodup : F2.employees.Nodup := by
    rw [hF2emp]
    exact nodup_append_singleton hBnodup hBwi
  have hF2size : F2.size = F2.employees.length := by
    rw [hF2]
    exact hire_size _ _ _
  have hF2split : F2.size = F2.size_0 + F2.size_1 := by
    rw [hF2]
    exact hire_split _ _ _ hBd (hdcl_lt wi hwi)
  have hG2at : ∀ gi, gi < m.firms.length → G2.getD gi dF =
      if gi = fi then F2 else if gi = ei then F1 else m.fAt gi := by
    intro gi hgi
    rw [hG2]
    by_cases h2 : gi = fi
    · cases h2
      rw [if_pos rfl]
      exact getD_set_self _ _ _ (by rw [hG1len]; exact hgi)
    · rw [if_neg h2, getD_set_ne _ _ _ (fun hh => h2 hh.symm), hG1]
      by_cases h3 : gi = ei
      · cases h3
        rw [if_pos rfl]
        exact getD_set_self _ _ _ hei
      · rw [if_neg h3]
        exact getD_set_ne _ _ _ (fun hh => h3 hh.symm)
  rw [hswitch]
  have hwAtwi : ∀ mw : Market, mw = { m with workers := m.workers.set wi W2, firms := G2 } →
      mw.wAt wi = W2 := by
    rintro mw rfl
    show (m.workers.set wi W2).getD wi dW = W2
    exact getD_set_self _ _ _ hwi
  have hwself : ({ m with workers := m.workers.set wi W2, firms := G2 } : Market).wAt wi = W2 :=
    hwAtwi _ rfl
  refine ⟨?_, rfl, by simp, hG2len, ?_, ?_, ?_, ?_, ?_, ?_⟩
  · constructor
    · show (m.workers.set wi W2).length = m.p.n_workers
      simpa using hInv.wlen
    · show G2.length = 2 * m.p.n_workers + 1
      rw [hG2len]
      exact hInv.flen
    · intro w hw
      rcases mem_of_mem_set hw with rfl | hw'
      · have : W2.d_class = (m.wAt wi).d_class := rfl
        rw [this]
        exact hdcl_lt wi hwi
      · exact hInv.dcl_le w hw'
    · intro x hx
      have hx' : x < m.workers.length := by simpa using hx
      by_cases hxwi : x = wi
      · cases hxwi
        refine ⟨fi, ?_, ?_⟩
        · show fi < G2.length
          rw [hG2len]
          exact hfi
        · rw [hwself]
          rfl
      · obtain ⟨gi, h1, h2⟩ := hInv.employed x hx'
        refine ⟨gi, ?_, ?_⟩
        · show gi < G2.length
          rw [hG2len]
          exact h1
        · show ((m.workers.set wi W2).getD x dW).employer = some gi
          rw [getD_set_ne _ _ _ (fun hh => hxwi hh.symm)]
          exact h2
    · intro gi hgi x
      have hgi' : gi < m.firms.length := by
        rw [← hG2len]
        exact hgi
      have hfa : ({ m with workers := m.workers.set wi W2, firms := G2 } : Market).fAt gi =
          G2.getD gi dF := rfl
      have hempx : (({ m with workers := m.workers.set wi W2, firms := G2 } : Market).wAt x).employer =
          if x = wi then some fi else (m.wAt x).employer := by
        show ((m.workers.set wi W2).getD x dW).employer = _
        by_cases hx : x = wi
        · cases hx
          rw [if_pos rfl, getD_set_self _ _ _ hwi]
          rfl
        · rw [if_neg hx, getD_set_ne _ _ _ (fun hh => hx hh.symm)]
          rfl
      have hwlenM : ({ m with workers := m.workers.set wi W2, firms := G2 } : Market).workers.length =
          m.workers.length := by simp
      rw [hfa, hG2at gi hgi', hempx, hwlenM]
      by_cases h2 : gi = fi
      · cases h2
        rw [if_pos rfl, hF2mem x]
        by_cases hx : x = wi
        · cases hx
          simp [hwi]
        · simp [hx]
      · rw [if_neg h2]
        by_cases h3 : gi = ei
        · cases h3
          rw [if_pos rfl, hF1mem x]
          constructor
          · rintro ⟨hne, hmem⟩
            obtain ⟨ha, hb⟩ := (hInv.member_iff ei hei x).mp hmem
            rw [if_neg hne]
            exact ⟨ha, hb⟩
          · rintro ⟨ha, hb⟩
            by_cases hx : x = wi
            · cases hx
              rw [if_pos rfl] at hb
              exact absurd (Option.some_inj.mp hb) (fun hh => h2 hh.symm)
            · rw [if_neg hx] at hb
              exact ⟨hx, (hInv.member_iff ei hei x).mpr ⟨ha, hb⟩⟩
        · rw [if_neg h3, hInv.member_iff gi hgi' x]
          constructor
          · rintro ⟨ha, hb⟩
            by_cases hx : x = wi
            · cases hx
              rw [hempl] at hb
              exact absurd (Option.some_inj.mp hb) (fun hh => h3 hh.symm)
            · rw [if_neg hx]
              exact ⟨ha, hb⟩
          · rintro ⟨ha, hb⟩
            by_cases hx : x = wi
            · cases hx
              rw [if_pos rfl] at hb
              exact absurd (Option.some_inj.mp hb) (fun hh => h2 hh.symm)
            · rw [if_neg hx] at hb
              exact ⟨ha, hb⟩
    · intro f hf
      rcases mem_of_mem_set hf with rfl | hf1
      · exact hF2nodup
      · rcases mem_of_mem_set hf1 with rfl | hf2
        · exact hF1nodup
        · exact hInv.nodup f hf2
    · intro f hf
      rcases mem_of_mem_set hf with rfl | hf1
      · exact hF2size
      · rcases mem_of_mem_set hf1 with rfl | hf2
        · exact hF1size
        · exact hInv.size_eq f hf2
    · intro f hf
      rcases mem_of_mem_set hf with rfl | hf1
      · exact hF2split
      · rcases mem_of_mem_set hf1 with rfl | hf2
        · exact hF1split
        · exact hInv.size_split f hf2
  · rw [hwself]
    rfl
  · rw [hwself]
    rfl
  · rw [hwself]
    rfl
  · rw [hwself]
    rfl
  · rw [hwself]
    rfl
  · intro j hj
    show (m.workers.set wi W2).getD j dW = m.wAt j
    rw [getD_set_ne _ _ _ (fun hh => hj hh.symm)]
    rfl

section EducationFacts

/-- The worker record `get_education` writes back for an unemployed
worker (proof scaffolding). -/
def educWorkerPlain (m : Market) (wi : Nat) (premium : ℚ) : Worker :=
  { m.wAt wi with educ := true, prod := (m.wAt wi).prod * (1 + premium) }

/-- The worker record `get_education` writes back for an employed worker
(proof scaffolding). -/
def educWorkerEmployed (m : Market) (wi : Nat) (premium : ℚ) : Worker :=
  { educWorkerPlain m wi premium with
      wage := Firm.calc_wage (m.firms.getD ((m.wAt wi).employer.getD 0) dF)
        (educWorkerPlain m wi premium) }

theorem get_education_eq_of_employed {m : Market} {wi ei : Nat} (premium : ℚ)
    (hE : (m.wAt wi).employer = some ei) :
    m.get_education wi premium =
      { m with workers := m.workers.set wi (educWorkerEmployed m wi premium) } := by
  simp only [Market.get_education]
  rw [if_pos (by rw [hE]; rfl)]
  rfl

theorem get_education_eq_of_unemployed {m : Market} {wi : Nat} (premium : ℚ)
    (hE : (m.wAt wi).employer = none) :
    m.get_education wi premium =
      { m with workers := m.workers.set wi (educWorkerPlain m wi premium) } := by
  simp only [Market.get_education]
  rw [if_neg (by rw [hE]; simp)]
  rfl

theorem Inv_get_education {m : Market} (hInv : m.Inv) (wi : Nat) (premium : ℚ) :
    (m.get_education wi premium).Inv := by
  cases hE : (m.wAt wi).employer with
  | some ei =>
    rw [get_education_eq_of_employed premium hE]
    exact Inv_worker_set hInv rfl rfl
  | none =>
    rw [get_education_eq_of_unemployed premium hE]
    exact Inv_worker_set hInv rfl rfl

theorem get_education_p (m : Market) (wi : Nat) (premium : ℚ) :
    (m.get_education wi premium).p = m.p := rfl

theorem get_education_firms (m : Market) (wi : Nat) (premium : ℚ) :
    (m.get_education wi premium).firms = m.firms := rfl

theorem get_education_wlen (m : Market) (wi : Nat) (premium : ℚ) :
    (m.get_education wi premium).workers.length = m.workers.length := by
  cases hE : (m.wAt wi).employer with
  | some ei =>
    rw [get_education_eq_of_employed premium hE]
    simp
  | none =>
    rw [get_education_eq_of_unemployed premium hE]
    simp

theorem get_education_wAt {m : Market} {wi : Nat} (premium : ℚ)
    (hwi : wi < m.workers.length) :
    ((m.get_education wi premium).wAt wi).educ = true ∧
    ((m.get_education wi premium).wAt wi).prod = (m.wAt wi).prod * (1 + premium) ∧
    ((m.get_education wi premium).wAt wi).employer = (m.wAt wi).employer ∧
    ((m.get_education wi premium).wAt wi).d_class = (m.wAt wi).d_class ∧
    (∀ j, j ≠ wi → (m.get_education wi premium).wAt j = m.wAt j) := by
  cases hE : (m.wAt wi).employer with
  | some ei =>
    rw [get_education_eq_of_employed premium hE]
    have hs : (({ m with workers := m.workers.set wi (educWorkerEmployed m wi premium) } :
        Market).wAt wi) = educWorkerEmployed m wi premium := by
      show (m.workers.set wi _).getD wi dW = _
      exact getD_set_self _ _ _ hwi
    refine ⟨?_, ?_, ?_, ?_, ?_⟩
    · rw [hs]
      rfl
    · rw [hs]
      rfl
    · rw [hs]
      show (m.wAt wi).employer = some ei
      exact hE
    · rw [hs]
      rfl
    · intro j hj
      show (m.workers.set wi _).getD j dW = _
      rw [getD_set_ne _ _ _ (fun hh => hj hh.symm)]
      rfl
  | none =>
    rw [get_education_eq_of_unemployed premium hE]
    have hs : (({ m with workers := m.workers.set wi (educWorkerPlain m wi premium) } :
        Market).wAt wi) = educWorkerPlain m wi premium := by
      show (m.workers.set wi _).getD wi dW = _
      exact getD_set_self _ _ _ hwi
    refine ⟨?_, ?_, ?_, ?_, ?_⟩
    · rw [hs]
      rfl
    · rw [hs]
      rfl
    · rw [hs]
      show (m.wAt wi).employer = none
      exact hE
    · rw [hs]
      rfl
    · intro j hj
      show (m.workers.set wi _).getD j dW = _
      rw [getD_set_ne _ _ _ (fun hh => hj hh.symm)]
      rfl

theorem education_decision_cases {m : Market} {wi : Nat} {premium : ℚ}
    {weighted coin : Bool} {m' : Market}
    (h : m.education_decision wi premium weighted coin = some m') :
    m' = m ∨ m' = m.get_education wi premium := by
  simp only [Market.education_decision] at h
  by_cases hp : (m.wAt wi).prod = 0
  · rw [if_pos hp] at h
    simp at h
  · rw [if_neg hp] at h
    split_ifs at h
    all_goals
      first
        | exact Or.inr (Option.some_inj.mp h).symm
        | exact Or.inl (Option.some_inj.mp h).symm

theorem Inv_education_decision {m m' : Market} (hInv : m.Inv) {wi : Nat}
    {premium : ℚ} {weighted coin : Bool}
    (h : m.education_decision wi premium weighted coin = some m') : m'.Inv := by
  rcases education_decision_cases h with rfl | rfl
  · exact hInv
  · exact Inv_get_education hInv wi premium

theorem education_decision_p {m m' : Market} {wi : Nat}
    {premium : ℚ} {weighted coin : Bool}
    (h : m.education_decision wi premium weighted coin = some m') : m'.p = m.p := by
  rcases education_decision_cases h with rfl | rfl
  · rfl
  · rfl

end EducationFacts

section SelectionFacts

/-- The wage offers a worker collects from a firm sample (proof
scaffolding for `rank_firms`). -/
def offerWages (m : Market) (wi : Nat) (sample : List Nat) : List ℚ :=
  sample.map (fun fi => Firm.calc_wage (m.firms.getD fi dF) (m.wAt wi))

/-- The market after `firm_selection` has marked the worker as searching
(proof scaffolding). -/
def searchedMarket (m : Market) (wi : Nat) : Market :=
  { m with workers := m.workers.set wi { m.wAt wi with search := true } }

/-- The market state `firm_selection` hands to `switch_employer` after
accepting an offer (proof scaffolding). -/
def acceptedMarket (m : Market) (wi : Nat) (wage : ℚ) : Market :=
  let w' : Worker :=
    { m.wAt wi with search := true, switched := some true, wage := wage }
  { m with workers := m.workers.set wi w' }

/-- The same accepted state, phrased on top of `searchedMarket` the way
`firm_selection` builds it (proof scaffolding). -/
def acceptedPre (m : Market) (wi : Nat) (wage : ℚ) : Market :=
  let w' : Worker :=
    { (searchedMarket m wi).wAt wi with switched := some true, wage := wage }
  { searchedMarket m wi with workers := (searchedMarket m wi).workers.set wi w' }

theorem searched_wAt (m : Market) (wi : Nat) (hwi : wi < m.workers.length) :
    (searchedMarket m wi).wAt wi = { m.wAt wi with search := true } := by
  show (m.workers.set wi _).getD wi dW = _
  exact getD_set_self _ _ _ hwi

theorem offerWages_searched (m : Market) (wi : Nat) (sample : List Nat)
    (hwi : wi < m.workers.length) :
    offerWages (searchedMarket m wi) wi sample = offerWages m wi sample := by
  unfold offerWages
  simp only [searched_wAt m wi hwi]
  rfl

theorem acceptedPre_eq (m : Market) (wi : Nat) (w : ℚ)
    (hwi : wi < m.workers.length) :
    acceptedPre m wi w = acceptedMarket m wi w := by
  unfold acceptedPre
  rw [searched_wAt m wi hwi]
  unfold searchedMarket acceptedMarket
  simp only [List.set_set]

theorem firm_selection_def_eq (m : Market) (wi : Nat) (sample : List Nat) :
    m.firm_selection wi sample =
      match (searchedMarket m wi).rank_firms wi sample with
      | none => none
      | some fw =>
        if fw.2 > ((searchedMarket m wi).wAt wi).wage then
          some ((acceptedPre m wi fw.2).switch_employer wi fw.1)
        else some (searchedMarket m wi) := rfl

theorem rank_firms_eq_some {m : Market} {wi : Nat} {sample : List Nat} {k : Nat}
    (hk : firstMaxIdx (offerWages m wi sample) = some k) :
    m.rank_firms wi sample =
      some (sample.getD k 0, (offerWages m wi sample).getD k 0) := by
  simp only [Market.rank_firms]
  rw [show (sample.map (fun fi => Firm.calc_wage (m.firms.getD fi dF) (m.wAt wi))) =
    offerWages m wi sample from rfl, hk]

theorem rank_firms_eq_none {m : Market} {wi : Nat} {sample : List Nat}
    (hk : firstMaxIdx (offerWages m wi sample) = none) :
    m.rank_firms wi sample = none := by
  simp only [Market.rank_firms]
  rw [show (sample.map (fun fi => Firm.calc_wage (m.firms.getD fi dF) (m.wAt wi))) =
    offerWages m wi sample from rfl, hk]

theorem firm_selection_spec {m m' : Market} {wi : Nat} {sample : List Nat}
    (hwi : wi < m.workers.length)
    (h : m.firm_selection wi sample = some m') :
    ∃ k, firstMaxIdx (offerWages m wi sample) = some k ∧
      (((offerWages m wi sample).getD k 0 > (m.wAt wi).wage ∧
        m' = (acceptedMarket m wi ((offerWages m wi sample).getD k 0)).switch_employer
          wi (sample.getD k 0)) ∨
       (¬ (offerWages m wi sample).getD k 0 > (m.wAt wi).wage ∧
        m' = searchedMarket m wi)) := by
  rw [firm_selection_def_eq] at h
  cases hk : firstMaxIdx (offerWages m wi sample) with
  | none =>
    rw [rank_firms_eq_none (by rw [offerWages_searched m wi sample hwi]; exact hk)] at h
    simp at h
  | some k =>
    rw [rank_firms_eq_some (by rw [offerWages_searched m wi sample hwi]; exact hk)] at h
    have h2 : (if (offerWages (searchedMarket m wi) wi sample).getD k 0 >
        ((searchedMarket m wi).wAt wi).wage then
        some ((acceptedPre m wi
          ((offerWages (searchedMarket m wi) wi sample).getD k 0)).switch_employer
            wi (sample.getD k 0))
      else some (searchedMarket m wi)) = some m' := h
    rw [offerWages_searched m wi sample hwi, searched_wAt m wi hwi] at h2
    rw [show ({ m.wAt wi with search := true } : Worker).wage = (m.wAt wi).wage from rfl] at h2
    refine ⟨k, rfl, ?_⟩
    by_cases hgt : (offerWages m wi sample).getD k 0 > (m.wAt wi).wage
    · left
      rw [if_pos hgt] at h2
      rw [acceptedPre_eq m wi _ hwi] at h2
      exact ⟨hgt, (Option.some_inj.mp h2).symm⟩
    · right
      rw [if_neg hgt] at h2
      exact ⟨hgt, (Option.some_inj.mp h2).symm⟩

end SelectionFacts

section PhaseFacts

theorem Inv_searchedMarket {m : Market} (hInv : m.Inv) (wi : Nat) :
    (searchedMarket m wi).Inv := Inv_worker_set hInv rfl rfl

theorem Inv_acceptedMarket {m : Market} (hInv : m.Inv) (wi : Nat) (w : ℚ) :
    (acceptedMarket m wi w).Inv := Inv_worker_set hInv rfl rfl

theorem searchedMarket_wAt_ne (m : Market) {wi j : Nat} (hj : j ≠ wi) :
    (searchedMarket m wi).wAt j = m.wAt j := by
  show (m.workers.set wi _).getD j dW = _
  rw [getD_set_ne _ _ _ (fun hh => hj hh.symm)]
  rfl

theorem acceptedMarket_wAt_self (m : Market) {wi : Nat} (w : ℚ)
    (hwi : wi < m.workers.length) :
    (acceptedMarket m wi w).wAt wi =
      { m.wAt wi with search := true, switched := some true, wage := w } := by
  show (m.workers.set wi _).getD wi dW = _
  exact getD_set_self _ _ _ hwi

theorem acceptedMarket_wAt_ne (m : Market) {wi j : Nat} (w : ℚ) (hj : j ≠ wi) :
    (acceptedMarket m wi w).wAt j = m.wAt j := by
  show (m.workers.set wi _).getD j dW = _
  rw [getD_set_ne _ _ _ (fun hh => hj hh.symm)]
  rfl

theorem Inv_firm_selection {m m' : Market} (hInv : m.Inv) {wi : Nat}
    {sample : List Nat}
    (hwi : wi < m.workers.length)
    (hsam : ∀ fi ∈ sample, fi < m.firms.length)
    (h : m.firm_selection wi sample = some m') :
    m'.Inv ∧ m'.p = m.p ∧ m'.workers.length = m.workers.length ∧
    m'.firms.length = m.firms.length ∧
    (∀ j, (m'.wAt j).educ = (m.wAt j).educ ∧ (m'.wAt j).prod = (m.wAt j).prod ∧
      (m'.wAt j).d_class = (m.wAt j).d_class) := by
  obtain ⟨k, hk, hcase⟩ := firm_selection_spec hwi h
  rcases hcase with ⟨hgt, rfl⟩ | ⟨hgt, rfl⟩
  · have hInvA : (acceptedMarket m wi ((offerWages m wi sample).getD k 0)).Inv :=
      Inv_acceptedMarket hInv wi _
    have hwlA : (acceptedMarket m wi ((offerWages m wi sample).getD k 0)).workers.length =
        m.workers.length := by
      show (m.workers.set wi _).length = _
      simp
    have hwiA : wi < (acceptedMarket m wi ((offerWages m wi sample).getD k 0)).workers.length := by
      rw [hwlA]
      exact hwi
    have hkl : k < sample.length := by
      have := firstMaxIdx_lt hk
      simpa [offerWages] using this
    have hfiA : sample.getD k 0 <
        (acceptedMarket m wi ((offerWages m wi sample).getD k 0)).firms.length := by
      show sample.getD k 0 < m.firms.length
      exact hsam _ (getD_mem_of_lt sample 0 hkl)
    obtain ⟨hI, hp, hwl, hfl, hempE, hwage, hprod, heduc, hdc, hother⟩ :=
      Inv_switch_employer hInvA hwiA hfiA
    refine ⟨hI, by rw [hp]; rfl, by rw [hwl, hwlA], by rw [hfl]; rfl, ?_⟩
    intro j
    by_cases hj : j = wi
    · cases hj
      rw [heduc, hprod, hdc, acceptedMarket_wAt_self m _ hwi]
      exact ⟨rfl, rfl, rfl⟩
    · rw [hother j hj, acceptedMarket_wAt_ne m _ hj]
      exact ⟨rfl, rfl, rfl⟩
  · refine ⟨Inv_searchedMarket hInv wi, rfl, by show (m.workers.set wi _).length = _; simp,
      rfl, ?_⟩
    intro j
    by_cases hj : j = wi
    · cases hj
      rw [searched_wAt m wi hwi]
      exact ⟨rfl, rfl, rfl⟩
    · rw [searchedMarket_wAt_ne m hj]
      exact ⟨rfl, rfl, rfl⟩

theorem Inv_educPhase : ∀ {as : List Nat} {m m' : Market} {premium : ℚ}
    {weighted : Bool} {coins : Nat → Bool}, m.Inv →
    Market.educPhase premium weighted coins m as = some m' →
    m'.Inv ∧ m'.p = m.p ∧ m'.firms = m.firms ∧
    m'.workers.length = m.workers.length := by
  intro as
  induction as with
  | nil =>
    intro m m' premium weighted coins hInv h
    have h' : m = m' := Option.some_inj.mp h
    subst h'
    exact ⟨hInv, rfl, rfl, rfl⟩
  | cons wi rest ih =>
    intro m m' premium weighted coins hInv h
    simp only [Market.educPhase] at h
    by_cases he : (m.wAt wi).educ = false
    · rw [if_pos he] at h
      cases hd : m.education_decision wi premium weighted (coins wi) with
      | none =>
        rw [hd] at h
        simp at h
      | some m1 =>
        rw [hd] at h
        have h' : Market.educPhase premium weighted coins m1 rest = some m' := h
        obtain ⟨hI, hp, hf, hwl⟩ := ih (Inv_education_decision hInv hd) h'
        rcases education_decision_cases hd with rfl | rfl
        · exact ⟨hI, hp, hf, hwl⟩
        · refine ⟨hI, ?_, ?_, ?_⟩
          · rw [hp]
            exact get_education_p m wi premium
          · rw [hf]
            exact get_education_firms m wi premium
          · rw [hwl]
            exact get_education_wlen m wi premium
    · rw [if_neg he] at h
      exact ih hInv h

theorem Inv_selPhase : ∀ {as : List Nat} {m m' : Market} {samples : Nat → List Nat},
    m.Inv →
    (∀ wi ∈ as, wi < m.workers.length) →
    (∀ wi ∈ as, ∀ fi ∈ samples wi, fi < m.firms.length) →
    Market.selPhase samples m as = some m' →
    m'.Inv ∧ m'.p = m.p ∧ m'.workers.length = m.workers.length ∧
    m'.firms.length = m.firms.length ∧
    (∀ j, (m'.wAt j).educ = (m.wAt j).educ ∧ (m'.wAt j).prod = (m.wAt j).prod) := by
  intro as
  induction as with
  | nil =>
    intro m m' samples hInv _ _ h
    have h' : m = m' := Option.some_inj.mp h
    subst h'
    exact ⟨hInv, rfl, rfl, rfl, fun j => ⟨rfl, rfl⟩⟩
  | cons wi rest ih =>
    intro m m' samples hInv hact hsam h
    simp only [Market.selPhase] at h
    cases hf : m.firm_selection wi (samples wi) with
    | none =>
      rw [hf] at h
      simp at h
    | some m1 =>
      rw [hf] at h
      have h' : Market.selPhase samples m1 rest = some m' := h
      obtain ⟨hI1, hp1, hwl1, hfl1, hfr1⟩ :=
        Inv_firm_selection hInv (hact wi (List.mem_cons_self wi rest))
          (hsam wi (List.mem_cons_self wi rest)) hf
      obtain ⟨hI, hp, hwl, hfl, hfr⟩ := ih hI1
        (fun x hx => by rw [hwl1]; exact hact x (List.mem_cons_of_mem wi hx))
        (fun x hx fi hfi => by rw [hfl1]; exact hsam x (List.mem_cons_of_mem wi hx) fi hfi)
        h'
      refine ⟨hI, hp.trans hp1, hwl.trans hwl1, hfl.trans hfl1, ?_⟩
      intro j
      exact ⟨((hfr j).1).trans (hfr1 j).1, ((hfr j).2).trans (hfr1 j).2.1⟩

theorem produce_frame (emp : Nat → Worker) (f : Firm) :
    (Firm.produce emp f).employees = f.employees ∧ (Firm.produce emp f).size = f.size ∧
    (Firm.produce emp f).size_0 = f.size_0 ∧ (Firm.produce emp f).size_1 = f.size_1 :=
  ⟨rfl, rfl, rfl, rfl⟩

theorem calc_profit_frame (emp : Nat → Worker) (f : Firm) :
    (Firm.calc_profit emp f).employees = f.employees ∧
    (Firm.calc_profit emp f).size = f.size ∧
    (Firm.calc_profit emp f).size_0 = f.size_0 ∧
    (Firm.calc_profit emp f).size_1 = f.size_1 :=
  ⟨rfl, rfl, rfl, rfl⟩

theorem Inv_postStep {m2 : Market} (hI2 : m2.Inv) :
    m2.postStep.Inv ∧ m2.postStep.p = m2.p ∧
    m2.postStep.workers.length = m2.workers.length ∧
    m2.postStep.firms.length = m2.firms.length ∧
    (∀ j, (m2.postStep.wAt j).educ = (m2.wAt j).educ ∧
      (m2.postStep.wAt j).prod = (m2.wAt j).prod ∧
      (m2.postStep.wAt j).wage = (m2.wAt j).wage ∧
      (m2.postStep.wAt j).d_class = (m2.wAt j).d_class ∧
      (m2.postStep.wAt j).employer = (m2.wAt j).employer) := by
  have hInv3 : (refreshMarket m2).Inv := Inv_worker_map hI2 _ (fun w => ⟨rfl, rfl⟩)
  have hInv4 : Market.Inv { refreshMarket m2 with firms := (refreshMarket m2).firms.map (Firm.produce (refreshMarket m2).wAt) } :=
    Inv_firm_map hInv3 _ (produce_frame _)
  have hInv5 : m2.postStep.Inv := Inv_firm_map hInv4 _ (calc_profit_frame _)
  refine ⟨hInv5, rfl, ?_, ?_, ?_⟩
  · show (m2.workers.map _).length = _
    rw [List.length_map]
  · show ((m2.firms.map _).map _).length = _
    rw [List.length_map, List.length_map]
  · intro j
    by_cases hj : j < m2.workers.length
    · have hwx : m2.postStep.wAt j = { m2.wAt j with employer_size := (m2.wAt j).employer.map (fun ei => (m2.firms.getD ei dF).size) } := by
        show (m2.workers.map _).getD j dW = _
        rw [getD_map_lt _ m2.workers dW dW hj]
        rfl
      rw [hwx]
      exact ⟨rfl, rfl, rfl, rfl, rfl⟩
    · have h1 : m2.postStep.wAt j = dW := by
        show (m2.workers.map _).getD j dW = dW
        rw [getD_of_ge]
        rw [List.length_map]
        exact Nat.le_of_not_lt hj
      have h2 : m2.wAt j = dW := getD_of_ge _ _ (Nat.le_of_not_lt hj)
      rw [h1, h2]
      exact ⟨rfl, rfl, rfl, rfl, rfl⟩

theorem step_spec {m m' : Market} (hInv : m.Inv) {r : StepRand}
    (hact : ∀ wi ∈ r.active, wi < m.workers.length)
    (hsam : ∀ wi ∈ r.active, ∀ fi ∈ r.samples wi, fi < m.firms.length)
    (h : m.step r = some m') :
    m'.Inv ∧ m'.p = m.p ∧ m'.workers.length = m.workers.length ∧
    m'.firms.length = m.firms.length := by
  simp only [Market.step] at h
  have hInv0 : Market.Inv { m with workers := m.workers.map (fun w => { w with search := false, switch := false }) } :=
    Inv_worker_map hInv _ (fun w => ⟨rfl, rfl⟩)
  cases he : Market.educPhase m.p.premium m.p.weighted r.coins { m with workers := m.workers.map (fun w => { w with search := false, switch := false }) } r.active with
  | none =>
    rw [he] at h
    simp at h
  | some m1 =>
    rw [he] at h
    obtain ⟨hI1, hp1, hf1, hwl1⟩ := Inv_educPhase hInv0 he
    have hwl1' : m1.workers.length = m.workers.length := by
      rw [hwl1]
      simp
    have hfl1' : m1.firms.length = m.firms.length := by
      rw [hf1]
    have h2 : (match Market.selPhase r.samples m1 r.active with
        | none => none
        | some m2 => some m2.postStep) = some m' := h
    cases hs : Market.selPhase r.samples m1 r.active with
    | none =>
      rw [hs] at h2
      simp at h2
    | some m2 =>
      rw [hs] at h2
      have hEq : m2.postStep = m' := Option.some_inj.mp h2
      obtain ⟨hI2, hp2, hwl2, hfl2, _⟩ := Inv_selPhase hI1
        (fun x hx => by rw [hwl1']; exact hact x hx)
        (fun x hx fi hfi => by rw [hfl1']; exact hsam x hx fi hfi)
        hs
      have hp2' : m2.p = m.p := by rw [hp2, hp1]
      have hwl2' : m2.workers.length = m.workers.length := by rw [hwl2, hwl1']
      have hfl2' : m2.firms.length = m.firms.length := by rw [hfl2, hfl1']
      obtain ⟨hI5, hp5, hwl5, hfl5, _⟩ := Inv_postStep hI2
      rw [← hEq]
      exact ⟨hI5, hp5.trans hp2', hwl5.trans hwl2', hfl5.trans hfl2'⟩

end PhaseFacts

section SetupFacts

/-- The market before the initial-assignment loop (proof scaffolding). -/
def initialMarket (p : Params) (dcs : List Nat) (prods : List ℤ) (dfs : List ℚ) : Market :=
  { p := p
    workers := (List.range p.n_workers).map
      (fun i => Worker.setup p (dcs.getD i 0) (prods.getD i 0))
    firms := (List.range (2 * p.n_workers + 1)).map
      (fun i => Firm.setup p (dfs.getD i 0))
    workerLog := []
    firmLog := [] }

/-- The worker record after its initial assignment (proof scaffolding):
employer triple cached from the pre-hire (empty) firm, wage from the
firm's offer. -/
def postSetupWorker (p : Params) (dc : Nat) (pr : ℤ) (d : ℚ) (i : Nat) : Worker :=
  { (Worker.setup p dc pr).update_employer (some (i, 0)) with
      wage := Firm.calc_wage (Firm.setup p d) (Worker.setup p dc pr) }

/-- The firm record after hiring its initial worker (proof
scaffolding). -/
def postHireFirm (p : Params) (d : ℚ) (dc : Nat) (i : Nat) : Firm :=
  { Firm.setup p d with
      employees := [i]
      size := 1
      size_1 := if dc = 1 then 1 else 0
      size_0 := if dc = 0 then 1 else 0 }

theorem setup_eq (p : Params) (dcs : List Nat) (prods : List ℤ) (dfs : List ℚ) :
    Market.setup p dcs prods dfs = (initialMarket p dcs prods dfs).setupLoop p.n_workers := rfl

theorem range_getD {n i : Nat} (h : i < n) : (List.range n).getD i 0 = i := by
  rw [getD_eq_of_lt _ _ (by simpa using h)]
  exact List.getElem_range _ _

theorem hire_fresh (dcl : Nat → Nat) (p : Params) (d : ℚ) (i : Nat) :
    Firm.hire dcl (Firm.setup p d) i = postHireFirm p d (dcl i) i := by
  unfold Firm.hire Firm.set_size Firm.setup postHireFirm
  rw [if_neg (List.not_mem_nil i)]
  by_cases h1 : dcl i = 1
  · simp [List.filter_cons, h1, Firm.setup]
  · by_cases h0 : dcl i = 0 <;> simp [List.filter_cons, h1, h0, Firm.setup]

theorem setupStep_spec {M : Market} {k : Nat} {dc : Nat} {pr : ℤ} {d : ℚ} {p : Params}
    (hwk : k < M.workers.length) (hfk : k < M.firms.length)
    (hMw : M.wAt k = Worker.setup p dc pr)
    (hMf : M.fAt k = Firm.setup p d) :
    (M.setupStep k).p = M.p ∧
    (M.setupStep k).workers.length = M.workers.length ∧
    (M.setupStep k).firms.length = M.firms.length ∧
    (M.setupStep k).workerLog = M.workerLog ∧
    (M.setupStep k).firmLog = M.firmLog ∧
    (M.setupStep k).wAt k = postSetupWorker p dc pr d k ∧
    (M.setupStep k).fAt k = postHireFirm p d dc k ∧
    (∀ j, j ≠ k → (M.setupStep k).wAt j = M.wAt j) ∧
    (∀ g, g ≠ k → (M.setupStep k).fAt g = M.fAt g) := by
  set A := (M.wAt k).update_employer (some (k, (M.fAt k).size)) with hA
  set M1 : Market := { M with workers := M.workers.set k A } with hM1
  set F1 := Firm.hire M1.dclassOf (M1.firms.getD k dF) k with hF1
  set M2 : Market := { M1 with firms := M1.firms.set k F1 } with hM2
  set B := { M2.wAt k with wage := Firm.calc_wage (M2.fAt k) (M2.wAt k) } with hB
  have hstep : M.setupStep k = { M2 with workers := M2.workers.set k B } := rfl
  have hA2 : A = (Worker.setup p dc pr).update_employer (some (k, 0)) := by
    rw [hA, hMw, hMf]
    rfl
  have hM1wk : M1.wAt k = A := by
    show (M.workers.set k A).getD k dW = A
    exact getD_set_self _ _ _ hwk
  have hdcl : M1.dclassOf k = dc := by
    show (M1.wAt k).d_class = dc
    rw [hM1wk, hA2]
    rfl
  have hF1' : F1 = postHireFirm p d dc k := by
    rw [hF1]
    rw [show M1.firms.getD k dF = Firm.setup p d from hMf]
    rw [hire_fresh]
    rw [hdcl]
  have hM2wk : M2.wAt k = A := hM1wk
  have hM2fk : M2.fAt k = F1 := by
    show (M1.firms.set k F1).getD k dF = F1
    exact getD_set_self _ _ _ hfk
  have hBpost : B = postSetupWorker p dc pr d k := by
    rw [hB, hM2fk, hF1', hM2wk, hA2]
    rfl
  refine ⟨rfl, ?_, ?_, rfl, rfl, ?_, ?_, ?_, ?_⟩
  · rw [hstep]
    show ((M.workers.set k A).set k B).length = M.workers.length
    simp
  · rw [hstep]
    show (M.firms.set k F1).length = M.firms.length
    simp
  · rw [hstep]
    show ((M.workers.set k A).set k B).getD k dW = _
    rw [List.set_set]
    rw [getD_set_self _ _ _ hwk]
    exact hBpost
  · rw [hstep]
    show (M.firms.set k F1).getD k dF = _
    rw [getD_set_self _ _ _ hfk]
    exact hF1'
  · intro j hj
    rw [hstep]
    show ((M.workers.set k A).set k B).getD j dW = _
    rw [getD_set_ne _ _ _ (fun hh => hj hh.symm), getD_set_ne _ _ _ (fun hh => hj hh.symm)]
    rfl
  · intro g hg
    rw [hstep]
    show (M.firms.set k F1).getD g dF = _
    rw [getD_set_ne _ _ _ (fun hh => hg hh.symm)]
    rfl

theorem setupLoop_spec (p : Params) (dcs : List Nat) (prods : List ℤ) (dfs : List ℚ) :
    ∀ k, k ≤ p.n_workers →
    ((initialMarket p dcs prods dfs).setupLoop k).p = p ∧
    ((initialMarket p dcs prods dfs).setupLoop k).workers.length = p.n_workers ∧
    ((initialMarket p dcs prods dfs).setupLoop k).firms.length = 2 * p.n_workers + 1 ∧
    (∀ i, i < p.n_workers →
      ((initialMarket p dcs prods dfs).setupLoop k).wAt i =
        if i < k then postSetupWorker p (dcs.getD i 0) (prods.getD i 0) (dfs.getD i 0) i
        else Worker.setup p (dcs.getD i 0) (prods.getD i 0)) ∧
    (∀ fi, fi < 2 * p.n_workers + 1 →
      ((initialMarket p dcs prods dfs).setupLoop k).fAt fi =
        if fi < k then postHireFirm p (dfs.getD fi 0) (dcs.getD fi 0) fi
        else Firm.setup p (dfs.getD fi 0)) := by
  intro k
  induction k with
  | zero =>
    intro _
    refine ⟨rfl, ?_, ?_, ?_, ?_⟩
    · show ((List.range p.n_workers).map _).length = _
      simp
    · show ((List.range (2 * p.n_workers + 1)).map _).length = _
      simp
    · intro i hi
      rw [if_neg (Nat.not_lt_zero i)]
      show ((List.range p.n_workers).map _).getD i dW = _
      rw [getD_map_lt _ _ 0 dW (by simpa using hi), range_getD hi]
    · intro fi hfi
      rw [if_neg (Nat.not_lt_zero fi)]
      show ((List.range (2 * p.n_workers + 1)).map _).getD fi dF = _
      rw [getD_map_lt _ _ 0 dF (by simpa using hfi), range_getD hfi]
  | succ k ih =>
    intro hk1
    have hkn : k < p.n_workers := hk1
    obtain ⟨hp, hwl, hfl, hw, hf⟩ := ih (Nat.le_of_succ_le hk1)
    have hkf : k < 2 * p.n_workers + 1 := by omega
    have hMw : ((initialMarket p dcs prods dfs).setupLoop k).wAt k =
        Worker.setup p (dcs.getD k 0) (prods.getD k 0) := by
      rw [hw k hkn, if_neg (lt_irrefl k)]
    have hMf : ((initialMarket p dcs prods dfs).setupLoop k).fAt k =
        Firm.setup p (dfs.getD k 0) := by
      rw [hf k hkf, if_neg (lt_irrefl k)]
    obtain ⟨sp, swl, sfl, _, _, swk, sfk, swj, sfg⟩ :=
      setupStep_spec (hwl ▸ hkn) (hfl ▸ hkf) hMw hMf
    have hloop : (initialMarket p dcs prods dfs).setupLoop (k + 1) =
        ((initialMarket p dcs prods dfs).setupLoop k).setupStep k := rfl
    refine ⟨?_, ?_, ?_, ?_, ?_⟩
    · rw [hloop, sp, hp]
    · rw [hloop, swl, hwl]
    · rw [hloop, sfl, hfl]
    · intro i hi
      rw [hloop]
      rcases eq_or_ne i k with rfl | hik
      · rw [if_pos (Nat.lt_succ_self i), swk]
      · rw [swj i hik, hw i hi]
        rcases Nat.lt_or_ge i k with hlt | hge
        · rw [if_pos hlt, if_pos (Nat.lt_succ_of_lt hlt)]
        · have h1 : ¬ i < k := Nat.not_lt.mpr hge
          have h2 : ¬ i < k + 1 := by omega
          rw [if_neg h1, if_neg h2]
    · intro fi hfi
      rw [hloop]
      rcases eq_or_ne fi k with rfl | hik
      · rw [if_pos (Nat.lt_succ_self fi), sfk]
      · rw [sfg fi hik, hf fi hfi]
        rcases Nat.lt_or_ge fi k with hlt | hge
        · rw [if_pos hlt, if_pos (Nat.lt_succ_of_lt hlt)]
        · have h1 : ¬ fi < k := Nat.not_lt.mpr hge
          have h2 : ¬ fi < k + 1 := by omega
          rw [if_neg h1, if_neg h2]

/-- Full characterization of the state `Market.setup` produces. -/
theorem setup_spec (p : Params) (dcs : List Nat) (prods : List ℤ) (dfs : List ℚ) :
    (Market.setup p dcs prods dfs).p = p ∧
    (Market.setup p dcs prods dfs).workers.length = p.n_workers ∧
    (Market.setup p dcs prods dfs).firms.length = 2 * p.n_workers + 1 ∧
    (∀ i, i < p.n_workers →
      (Market.setup p dcs prods dfs).wAt i =
        postSetupWorker p (dcs.getD i 0) (prods.getD i 0) (dfs.getD i 0) i) ∧
    (∀ fi, fi < 2 * p.n_workers + 1 →
      (Market.setup p dcs prods dfs).fAt fi =
        if fi < p.n_workers then postHireFirm p (dfs.getD fi 0) (dcs.getD fi 0) fi
        else Firm.setup p (dfs.getD fi 0)) := by
  obtain ⟨hp, hwl, hfl, hw, hf⟩ :=
    setupLoop_spec p dcs prods dfs p.n_workers (le_refl _)
  rw [setup_eq]
  refine ⟨hp, hwl, hfl, ?_, hf⟩
  intro i hi
  rw [hw i hi, if_pos hi]

/-- The freshly set-up market satisfies all the roster invariants,
provided every drawn class is `0` or `1` (as `random.choice [1, 0]`
guarantees). -/
theorem Inv_setup (p : Params) (dcs : List Nat) (prods : List ℤ) (dfs : List ℚ)
    (hdc : ∀ x ∈ dcs, x ≤ 1) : (Market.setup p dcs prods dfs).Inv := by
  obtain ⟨hp, hwl, hfl, hw, hf⟩ := setup_spec p dcs prods dfs
  constructor
  · rw [hwl, hp]
  · rw [hfl, hp]
  · intro w hwm
    rw [mem_iff_getD dW] at hwm
    obtain ⟨i, hi, rfl⟩ := hwm
    have hi' : i < p.n_workers := hwl ▸ hi
    show ((Market.setup p dcs prods dfs).wAt i).d_class ≤ 1
    rw [hw i hi']
    show dcs.getD i 0 ≤ 1
    exact getD_nat_le hdc i
  · intro wi hwi
    have hwi' : wi < p.n_workers := hwl ▸ hwi
    refine ⟨wi, ?_, ?_⟩
    · rw [hfl]
      omega
    · rw [hw wi hwi']
      rfl
  · intro fi hfi wi
    have hfi' : fi < 2 * p.n_workers + 1 := hfl ▸ hfi
    rw [hf fi hfi']
    by_cases hfin : fi < p.n_workers
    · rw [if_pos hfin]
      constructor
      · intro hmem
        have hwf : wi = fi := by
          have : wi ∈ [fi] := hmem
          simpa using this
        subst hwf
        refine ⟨by rw [hwl]; exact hfin, ?_⟩
        rw [hw wi hfin]
        rfl
      · rintro ⟨h1, h2⟩
        have h1' : wi < p.n_workers := hwl ▸ h1
        rw [hw wi h1'] at h2
        have h3 : (some wi : Option Nat) = some fi := h2
        have hwf : wi = fi := Option.some_inj.mp h3
        subst hwf
        show wi ∈ [wi]
        simp
    · rw [if_neg hfin]
      constructor
      · intro hmem
        exact absurd hmem (List.not_mem_nil wi)
      · rintro ⟨h1, h2⟩
        have h1' : wi < p.n_workers := hwl ▸ h1
        rw [hw wi h1'] at h2
        have h3 : (some wi : Option Nat) = some fi := h2
        have hwf : wi = fi := Option.some_inj.mp h3
        omega
  · intro f hfm
    rw [mem_iff_getD dF] at hfm
    obtain ⟨fi, hfi, rfl⟩ := hfm
    have hfi' : fi < 2 * p.n_workers + 1 := hfl ▸ hfi
    show ((Market.setup p dcs prods dfs).fAt fi).employees.Nodup
    rw [hf fi hfi']
    by_cases hfin : fi < p.n_workers
    · rw [if_pos hfin]
      show ([fi] : List Nat).Nodup
      simp
    · rw [if_neg hfin]
      show ([] : List Nat).Nodup
      simp
  · intro f hfm
    rw [mem_iff_getD dF] at hfm
    obtain ⟨fi, hfi, rfl⟩ := hfm
    have hfi' : fi < 2 * p.n_workers + 1 := hfl ▸ hfi
    show ((Market.setup p dcs prods dfs).fAt fi).size =
      ((Market.setup p dcs prods dfs).fAt fi).employees.length
    rw [hf fi hfi']
    by_cases hfin : fi < p.n_workers
    · rw [if_pos hfin]
      rfl
    · rw [if_neg hfin]
      rfl
  · intro f hfm
    rw [mem_iff_getD dF] at hfm
    obtain ⟨fi, hfi, rfl⟩ := hfm
    have hfi' : fi < 2 * p.n_workers + 1 := hfl ▸ hfi
    show ((Market.setup p dcs prods dfs).fAt fi).size =
      ((Market.setup p dcs prods dfs).fAt fi).size_0 +
      ((Market.setup p dcs prods dfs).fAt fi).size_1
    rw [hf fi hfi']
    by_cases hfin : fi < p.n_workers
    · rw [if_pos hfin]
      have hc : dcs.getD fi 0 ≤ 1 := getD_nat_le hdc fi
      interval_cases h : dcs.getD fi 0 <;> simp [postHireFirm, h]
    · rw [if_neg hfin]
      rfl

end SetupFacts

section RunFacts

/-- The roster invariants and the parameter record are preserved by the
whole step loop, for any sequence of in-range draws. -/
theorem Inv_runSteps : ∀ {rands : List StepRand} {m m' : Market}, m.Inv →
    (∀ r ∈ rands, ∀ wi ∈ r.active, wi < m.p.n_workers) →
    (∀ r ∈ rands, ∀ wi ∈ r.active, ∀ fi ∈ r.samples wi, fi < 2 * m.p.n_workers + 1) →
    Market.runSteps m rands = some m' → m'.Inv ∧ m'.p = m.p := by
  intro rands
  induction rands with
  | nil =>
    intro m m' hInv _ _ h
    have h' : m = m' := Option.some_inj.mp h
    subst h'
    exact ⟨hInv, rfl⟩
  | cons r rs ih =>
    intro m m' hInv hact hsam h
    have h0 : (match m.step r with
      | none => none
      | some m1 => Market.runSteps m1.update rs) = some m' := h
    cases hs : m.step r with
    | none =>
      rw [hs] at h0
      exact absurd h0 (by simp)
    | some m1 =>
      rw [hs] at h0
      have h1 : Market.runSteps m1.update rs = some m' := h0
      obtain ⟨hI1, hp1, _, _⟩ := step_spec hInv
        (fun wi hwi => by
          rw [hInv.wlen]
          exact hact r (List.mem_cons_self r rs) wi hwi)
        (fun wi hwi fi hfi => by
          rw [hInv.flen]
          exact hsam r (List.mem_cons_self r rs) wi hwi fi hfi)
        hs
      have hpu : m1.update.p = m.p := hp1
      obtain ⟨hI, hp⟩ := ih (Inv_update hI1)
        (fun r' hr' wi hwi => by
          rw [hpu]
          exact hact r' (List.mem_cons_of_mem r hr') wi hwi)
        (fun r' hr' wi hwi fi hfi => by
          rw [hpu]
          exact hsam r' (List.mem_cons_of_mem r hr') wi hwi fi hfi)
        h1
      exact ⟨hI, hp.trans hpu⟩

/-- `Market.run` lands in a state satisfying all roster invariants. -/
theorem Inv_run {p : Params} {dcs : List Nat} {prods : List ℤ} {dfs : List ℚ}
    {rands : List StepRand} {m' : Market}
    (hdc : ∀ x ∈ dcs, x ≤ 1)
    (hact : ∀ r ∈ rands, ∀ wi ∈ r.active, wi < p.n_workers)
    (hsam : ∀ r ∈ rands, ∀ wi ∈ r.active, ∀ fi ∈ r.samples wi, fi < 2 * p.n_workers + 1)
    (h : Market.run p dcs prods dfs rands = some m') :
    m'.Inv ∧ m'.p = p := by
  have hI0 : (Market.setup p dcs prods dfs).update.Inv :=
    Inv_update (Inv_setup p dcs prods dfs hdc)
  have hp0 : (Market.setup p dcs prods dfs).update.p = p :=
    (setup_spec p dcs prods dfs).1
  obtain ⟨hI, hp⟩ := Inv_runSteps hI0
    (fun r hr wi hwi => by
      rw [hp0]
      exact hact r hr wi hwi)
    (fun r hr wi hwi fi hfi => by
      rw [hp0]
      exact hsam r hr wi hwi fi hfi)
    h
  exact ⟨hI, hp.trans hp0⟩

end RunFacts

section ConservationFacts

theorem list_sum_to_range (l : List Nat) :
    l.sum = ∑ i in Finset.range l.length, l.getD i 0 := by
  induction l with
  | nil => simp
  | cons a t ih =>
    rw [List.sum_cons, List.length_cons, Finset.sum_range_succ']
    simp only [List.getD_cons_succ, List.getD_cons_zero]
    rw [← ih]
    omega

theorem length_eq_sum_indicator {l : List Nat} {n : Nat} (hnd : l.Nodup)
    (hlt : ∀ x ∈ l, x < n) :
    l.length = ∑ i in Finset.range n, if i ∈ l then 1 else 0 := by
  classical
  rw [← Finset.card_filter]
  rw [← List.toFinset_card_of_nodup hnd]
  congr 1
  ext i
  simp only [Finset.mem_filter, Finset.mem_range, List.mem_toFinset]
  constructor
  · intro hi
    exact ⟨hlt i hi, hi⟩
  · rintro ⟨_, hi⟩
    exact hi

/-- Conservation: under the roster invariants, firm sizes sum to the
worker population. -/
theorem size_sum_of_Inv {m : Market} (hInv : m.Inv) :
    (m.firms.map (fun f => f.size)).sum = m.p.n_workers := by
  classical
  have hF : (m.firms.map (fun f => f.size)).length = m.firms.length := by simp
  rw [list_sum_to_range, hF]
  have h1 : ∀ fi ∈ Finset.range m.firms.length,
      (m.firms.map (fun f => f.size)).getD fi 0 = (m.fAt fi).employees.length := by
    intro fi hfi
    rw [Finset.mem_range] at hfi
    rw [getD_map_lt _ _ dF 0 hfi]
    exact hInv.size_eq _ (getD_mem_of_lt _ dF hfi)
  rw [Finset.sum_congr rfl h1]
  have h2 : ∀ fi ∈ Finset.range m.firms.length,
      (m.fAt fi).employees.length =
        ∑ wi in Finset.range m.workers.length,
          if (m.wAt wi).employer = some fi then 1 else 0 := by
    intro fi hfi
    rw [Finset.mem_range] at hfi
    have hnd : (m.fAt fi).employees.Nodup := hInv.nodup _ (getD_mem_of_lt _ dF hfi)
    have hlt : ∀ x ∈ (m.fAt fi).employees, x < m.workers.length := by
      intro x hx
      exact ((hInv.member_iff fi hfi x).mp hx).1
    rw [length_eq_sum_indicator hnd hlt]
    apply Finset.sum_congr rfl
    intro wi hwi
    rw [Finset.mem_range] at hwi
    by_cases hm : wi ∈ (m.fAt fi).employees
    · rw [if_pos hm, if_pos ((hInv.member_iff fi hfi wi).mp hm).2]
    · rw [if_neg hm, if_neg (fun hc => hm ((hInv.member_iff fi hfi wi).mpr ⟨hwi, hc⟩))]
  rw [Finset.sum_congr rfl h2]
  rw [Finset.sum_comm]
  have h3 : ∀ wi ∈ Finset.range m.workers.length,
      (∑ fi in Finset.range m.firms.length,
        if (m.wAt wi).employer = some fi then 1 else 0) = 1 := by
    intro wi hwi
    rw [Finset.mem_range] at hwi
    obtain ⟨fi0, hfi0, hemp⟩ := hInv.employed wi hwi
    have hiff : ∀ fi, ((m.wAt wi).employer = some fi) ↔ fi0 = fi := by
      intro fi
      rw [hemp]
      constructor
      · intro hc
        exact Option.some_inj.mp hc
      · intro hc
        rw [hc]
    rw [Finset.sum_congr rfl (fun fi _ => by rw [if_congr (hiff fi) rfl rfl])]
    rw [Finset.sum_ite_eq]
    rw [if_pos (Finset.mem_range.mpr hfi0)]
  rw [Finset.sum_congr rfl h3]
  simp [hInv.wlen]

/-- Under the invariants every worker sits on exactly one firm's roster,
and that firm is the worker's cached employer. -/
theorem unique_employer_of_Inv {m : Market} (hInv : m.Inv) {wi : Nat}
    (hwi : wi < m.workers.length) :
    ∃! fi, fi < m.firms.length ∧ wi ∈ (m.fAt fi).employees ∧
      (m.wAt wi).employer = some fi := by
  obtain ⟨fi0, hfi0, hemp⟩ := hInv.employed wi hwi
  refine ⟨fi0, ⟨hfi0, (hInv.member_iff fi0 hfi0 wi).mpr ⟨hwi, hemp⟩, hemp⟩, ?_⟩
  rintro fi ⟨_, _, hempfi⟩
  rw [hemp] at hempfi
  exact (Option.some_inj.mp hempfi).symm

end ConservationFacts

section ClaimC3

/-- A default market, used only as a `getD` fallback when naming the
result of a concrete run. -/
def dM : Market :=
  { p := p1c, workers := [], firms := [], workerLog := [], firmLog := [] }

/-- The final state of the concrete single-worker run used to witness the
invariant claim. -/
def mC3 : Market := (Market.run p1c [1] [10] [1/2, 0, 0] [r1c]).getD dM

/-- C3: at the boundary of every completed setup/step phase (i.e. in the
final state of a run over any prefix of draws), each worker sits on
exactly one firm's roster and that firm is the worker's `employer`
reference; every firm's `size` equals its roster length and equals
`size_0 + size_1`; and the sizes over all firms sum to `n_workers`. -/
theorem market_invariants {p : Params} {dcs : List Nat} {prods : List ℤ}
    {dfs : List ℚ} {rands : List StepRand} {m' : Market}
    (hdc : ∀ x ∈ dcs, x ≤ 1)
    (hact : ∀ r ∈ rands, ∀ wi ∈ r.active, wi < p.n_workers)
    (hsam : ∀ r ∈ rands, ∀ wi ∈ r.active, ∀ fi ∈ r.samples wi, fi < 2 * p.n_workers + 1)
    (hrun : Market.run p dcs prods dfs rands = some m') :
    m'.workers.length = p.n_workers ∧
    (∀ wi, wi < m'.workers.length →
      ∃! fi, fi < m'.firms.length ∧ wi ∈ (m'.fAt fi).employees ∧
        (m'.wAt wi).employer = some fi) ∧
    (∀ f ∈ m'.firms, f.size = f.employees.length ∧ f.size = f.size_0 + f.size_1) ∧
    (m'.firms.map (fun f => f.size)).sum = p.n_workers := by
  obtain ⟨hI, hp⟩ := Inv_run hdc hact hsam hrun
  refine ⟨by rw [hI.wlen, hp], ?_, ?_, by rw [size_sum_of_Inv hI, hp]⟩
  · intro wi hwi
    exact unique_employer_of_Inv hI hwi
  · intro f hf
    exact ⟨hI.size_eq f hf, hI.size_split f hf⟩

theorem market_invariants_witness :
    mC3.workers.length = 1 ∧ (mC3.firms.map (fun f => f.size)).sum = 1 := by
  have hrun : Market.run p1c [1] [10] [1/2, 0, 0] [r1c] = some mC3 := by
    norm_num [mC3, p1c, r1c, range_one, range_three, Market.run, Market.setup,
      Market.setupLoop, Market.setupStep, Market.runSteps, Market.update,
      Market.step, Market.postStep, refreshMarket, Market.educPhase,
      Market.selPhase, Market.education_decision, nanGT, nanEQ,
      Market.educ_benefit, Market.calc_avg_d, npMean, Market.rank_firms,
      firstMaxIdx, firstMaxIdxA, Market.firm_selection, Market.switch_employer,
      Market.separate_from_employer, Market.get_education, Worker.record,
      Firm.record, Firm.produce, Firm.calc_profit, Firm.separate, Firm.hire,
      Firm.set_size, Firm.calc_wage, Worker.setup, Firm.setup,
      Worker.update_employer, Market.wAt, Market.fAt, Market.dclassOf, dW, dF]
  obtain ⟨hlen, _, _, hsum⟩ := market_invariants (p := p1c)
    (by decide) (by decide) (by decide) hrun
  exact ⟨hlen, hsum⟩

end ClaimC3

section ClaimC7

/-- C7: when `firm_selection` accepts (the best sampled offer is strictly
above the current wage), the chosen firm is the first sampled firm
attaining the maximal offer, the worker's employer and wage become that
firm and that offer, the worker joins that firm's roster and leaves the
old employer's; on a tie or an inferior best offer only the `search` flag
changes: employer, wage and all rosters are untouched. -/
theorem firm_selection_switch_correct {m m' : Market} {wi : Nat} {sample : List Nat}
    (hInv : m.Inv) (hwi : wi < m.workers.length)
    (hsam : ∀ fi ∈ sample, fi < m.firms.length)
    (hex : ∀ fi ∈ sample, (m.wAt wi).employer ≠ some fi)
    (h : m.firm_selection wi sample = some m') :
    ∃ k, k < sample.length ∧
      (((offerWages m wi sample).getD k 0 > (m.wAt wi).wage ∧
        (∀ i, i < sample.length →
          (offerWages m wi sample).getD i 0 ≤ (offerWages m wi sample).getD k 0) ∧
        (∀ i, i < k →
          (offerWages m wi sample).getD i 0 < (offerWages m wi sample).getD k 0) ∧
        (m'.wAt wi).employer = some (sample.getD k 0) ∧
        (m'.wAt wi).wage = (offerWages m wi sample).getD k 0 ∧
        wi ∈ (m'.fAt (sample.getD k 0)).employees ∧
        (∀ ei, (m.wAt wi).employer = some ei → wi ∉ (m'.fAt ei).employees)) ∨
       (¬ (offerWages m wi sample).getD k 0 > (m.wAt wi).wage ∧
        (m'.wAt wi).employer = (m.wAt wi).employer ∧
        (m'.wAt wi).wage = (m.wAt wi).wage ∧
        m'.firms = m.firms)) := by
  obtain ⟨k, hk, hcase⟩ := firm_selection_spec hwi h
  have hoffl : (offerWages m wi sample).length = sample.length := by
    simp [offerWages]
  have hklt : k < sample.length := by
    rw [← hoffl]
    exact firstMaxIdx_lt hk
  refine ⟨k, hklt, ?_⟩
  rcases hcase with ⟨hgt, hm'⟩ | ⟨hng, hm'⟩
  · left
    subst hm'
    have hbfmem : sample.getD k 0 ∈ sample := getD_mem_of_lt sample 0 hklt
    have hbf : sample.getD k 0 < m.firms.length := hsam _ hbfmem
    have hInvA : (acceptedMarket m wi ((offerWages m wi sample).getD k 0)).Inv :=
      Inv_acceptedMarket hInv wi _
    have hwiA : wi < (acceptedMarket m wi ((offerWages m wi sample).getD k 0)).workers.length := by
      show wi < (m.workers.set wi _).length
      simpa using hwi
    have hbfA : sample.getD k 0 <
        (acceptedMarket m wi ((offerWages m wi sample).getD k 0)).firms.length := hbf
    obtain ⟨hI', _, hwl', hfl', hemp', hwage', _, _, _, _⟩ :=
      Inv_switch_employer hInvA hwiA hbfA
    refine ⟨hgt, fun i hi => firstMaxIdx_le hk i (by rw [hoffl]; exact hi),
      fun i hi => firstMaxIdx_first hk i hi, hemp', ?_, ?_, ?_⟩
    · rw [hwage', acceptedMarket_wAt_self m _ hwi]
    · have hwlen : wi < ((acceptedMarket m wi
          ((offerWages m wi sample).getD k 0)).switch_employer wi
          (sample.getD k 0)).workers.length := by
        rw [hwl']
        exact hwiA
      have hflen : sample.getD k 0 < ((acceptedMarket m wi
          ((offerWages m wi sample).getD k 0)).switch_employer wi
          (sample.getD k 0)).firms.length := by
        rw [hfl']
        exact hbfA
      exact (hI'.member_iff _ hflen wi).mpr ⟨hwlen, hemp'⟩
    · intro ei hei hmem
      obtain ⟨ei', heilt, hempl'⟩ := hInv.employed wi hwi
      rw [hei] at hempl'
      have heq : ei = ei' := Option.some_inj.mp hempl'
      subst heq
      have heilt' : ei < ((acceptedMarket m wi
          ((offerWages m wi sample).getD k 0)).switch_employer wi
          (sample.getD k 0)).firms.length := by
        rw [hfl']
        exact heilt
      have hthis := ((hI'.member_iff ei heilt' wi).mp hmem).2
      rw [hemp'] at hthis
      have hbe : sample.getD k 0 = ei := Option.some_inj.mp hthis
      exact hex _ hbfmem (by rw [hbe]; exact hei)
  · right
    subst hm'
    refine ⟨hng, ?_, ?_, rfl⟩
    · rw [searched_wAt m wi hwi]
    · rw [searched_wAt m wi hwi]

/-- The post-setup market of the single-worker C7 configuration. -/
def mS7 : Market := Market.setup p1c [1] [10] [1/2, 0, 0]

/-- The state after worker 0 runs `firm_selection` with sample `[1]` in
`mS7`. -/
def mC7 : Market := (mS7.firm_selection 0 [1]).getD dM

theorem firm_selection_switch_correct_witness :
    (mC7.wAt 0).employer = some 1 ∧ (mC7.wAt 0).wage = 10 := by
  have hInv : mS7.Inv := Inv_setup p1c [1] [10] [1/2, 0, 0] (by decide)
  have hwlen : mS7.workers.length = 1 := by
    have hh := (setup_spec p1c [1] [10] [1/2, 0, 0]).2.1
    rw [show Market.setup p1c [1] [10] [1/2, 0, 0] = mS7 from rfl] at hh
    exact hh
  have hflen : mS7.firms.length = 3 := by
    have hh := (setup_spec p1c [1] [10] [1/2, 0, 0]).2.2.1
    rw [show Market.setup p1c [1] [10] [1/2, 0, 0] = mS7 from rfl] at hh
    exact hh
  have hemp0 : (mS7.wAt 0).employer = some 0 := by
    norm_num [mS7, p1c, range_one, range_three, Market.setup, Market.setupLoop,
      Market.setupStep, Worker.setup, Firm.setup, Firm.hire, Firm.set_size,
      Firm.calc_wage, Worker.update_employer, Market.wAt, Market.fAt,
      Market.dclassOf, dW, dF]
  have hwage0 : (mS7.wAt 0).wage = 5 := by
    norm_num [mS7, p1c, range_one, range_three, Market.setup, Market.setupLoop,
      Market.setupStep, Worker.setup, Firm.setup, Firm.hire, Firm.set_size,
      Firm.calc_wage, Worker.update_employer, Market.wAt, Market.fAt,
      Market.dclassOf, dW, dF]
  have hoffer : (offerWages mS7 0 [1]).getD 0 0 = 10 := by
    norm_num [offerWages, mS7, p1c, range_one, range_three, Market.setup,
      Market.setupLoop, Market.setupStep, Worker.setup, Firm.setup, Firm.hire,
      Firm.set_size, Firm.calc_wage, Worker.update_employer, Market.wAt,
      Market.fAt, Market.dclassOf, dW, dF]
  have hsel : mS7.firm_selection 0 [1] = some mC7 := by
    norm_num [mC7, mS7, p1c, range_one, range_three, Market.setup,
      Market.setupLoop, Market.setupStep, Market.firm_selection,
      Market.rank_firms, firstMaxIdx, firstMaxIdxA, Market.switch_employer,
      Market.separate_from_employer, Worker.setup, Firm.setup, Firm.hire,
      Firm.separate, Firm.set_size, Firm.calc_wage, Worker.update_employer,
      Market.wAt, Market.fAt, Market.dclassOf, dW, dF]
  obtain ⟨k, hk, hcase⟩ := firm_selection_switch_correct hInv
    (by rw [hwlen]; omega)
    (by intro fi hfi
        have : fi = 1 := by simpa using hfi
        subst this
        rw [hflen]
        omega)
    (by intro fi hfi
        have : fi = 1 := by simpa using hfi
        subst this
        rw [hemp0]
        decide)
    hsel
  have hk0 : k = 0 := by simpa using hk
  subst hk0
  rcases hcase with ⟨_, _, _, hemp, hwage, _, _⟩ | ⟨hng, _⟩
  · constructor
    · rw [hemp]
      rfl
    · rw [hwage, hoffer]
  · rw [hoffer, hwage0] at hng
    norm_num at hng

end ClaimC7

section ClaimC8

theorem reset_frame (m : Market) (j : Nat) :
    (({ m with workers := m.workers.map (fun w => { w with search := false, switch := false }) } : Market).wAt j).educ = (m.wAt j).educ ∧
    (({ m with workers := m.workers.map (fun w => { w with search := false, switch := false }) } : Market).wAt j).prod = (m.wAt j).prod := by
  by_cases hj : j < m.workers.length
  · have h1 : ({ m with workers := m.workers.map (fun w => { w with search := false, switch := false }) } : Market).wAt j = { m.wAt j with search := false, switch := false } := by
      show (m.workers.map _).getD j dW = _
      rw [getD_map_lt _ m.workers dW dW hj]
      rfl
    rw [h1]
    exact ⟨rfl, rfl⟩
  · have h1 : ({ m with workers := m.workers.map (fun w => { w with search := false, switch := false }) } : Market).wAt j = dW := by
      show (m.workers.map _).getD j dW = dW
      rw [getD_of_ge _ dW (by rw [List.length_map]; exact Nat.le_of_not_lt hj)]
    have h2 : m.wAt j = dW := getD_of_ge _ dW (Nat.le_of_not_lt hj)
    rw [h1, h2]
    exact ⟨rfl, rfl⟩

theorem educ_mono_get_education {m : Market} {wi : Nat} {premium : ℚ}
    (hwi : wi < m.workers.length) (hprem : 0 ≤ premium)
    (hnn : ∀ j, 0 ≤ (m.wAt j).prod) :
    ∀ j, ((m.wAt j).educ = true → ((m.get_education wi premium).wAt j).educ = true) ∧
      (m.wAt j).prod ≤ ((m.get_education wi premium).wAt j).prod ∧
      0 ≤ ((m.get_education wi premium).wAt j).prod := by
  obtain ⟨he, hp, _, _, hfr⟩ := get_education_wAt premium hwi
  intro j
  rcases eq_or_ne j wi with rfl | hj
  · refine ⟨fun _ => he, ?_, ?_⟩
    · rw [hp]
      nlinarith [hnn j, mul_nonneg (hnn j) hprem]
    · rw [hp]
      nlinarith [hnn j, mul_nonneg (hnn j) hprem]
  · rw [hfr j hj]
    exact ⟨fun h => h, le_refl _, hnn j⟩

theorem educPhase_mono : ∀ {as : List Nat} {m m' : Market} {premium : ℚ}
    {weighted : Bool} {coins : Nat → Bool},
    0 ≤ premium →
    (∀ wi ∈ as, wi < m.workers.length) →
    (∀ j, 0 ≤ (m.wAt j).prod) →
    Market.educPhase premium weighted coins m as = some m' →
    ∀ j, ((m.wAt j).educ = true → (m'.wAt j).educ = true) ∧
      (m.wAt j).prod ≤ (m'.wAt j).prod ∧ 0 ≤ (m'.wAt j).prod := by
  intro as
  induction as with
  | nil =>
    intro m m' premium weighted coins _ _ hnn h
    have h' : m = m' := Option.some_inj.mp h
    subst h'
    exact fun j => ⟨fun hh => hh, le_refl _, hnn j⟩
  | cons wi rest ih =>
    intro m m' premium weighted coins hprem hact hnn h
    simp only [Market.educPhase] at h
    by_cases he : (m.wAt wi).educ = false
    · rw [if_pos he] at h
      cases hd : m.education_decision wi premium weighted (coins wi) with
      | none =>
        rw [hd] at h
        simp at h
      | some m1 =>
        rw [hd] at h
        have hstep : m1.workers.length = m.workers.length ∧
            ∀ j, ((m.wAt j).educ = true → (m1.wAt j).educ = true) ∧
              (m.wAt j).prod ≤ (m1.wAt j).prod ∧ 0 ≤ (m1.wAt j).prod := by
          rcases education_decision_cases hd with rfl | rfl
          · exact ⟨rfl, fun j => ⟨fun hh => hh, le_refl _, hnn j⟩⟩
          · exact ⟨get_education_wlen m wi premium,
              educ_mono_get_education (hact wi (List.mem_cons_self wi rest)) hprem hnn⟩
        obtain ⟨hl1, hm1⟩ := hstep
        have hm2 := ih hprem
          (fun w hw => by rw [hl1]; exact hact w (List.mem_cons_of_mem wi hw))
          (fun j => (hm1 j).2.2) h
        exact fun j => ⟨fun hh => (hm2 j).1 ((hm1 j).1 hh),
          le_trans (hm1 j).2.1 (hm2 j).2.1, (hm2 j).2.2⟩
    · rw [if_neg he] at h
      exact ih hprem (fun w hw => hact w (List.mem_cons_of_mem wi hw)) hnn h

theorem step_mono {m m' : Market} {r : StepRand} (hInv : m.Inv)
    (hprem : 0 ≤ m.p.premium)
    (hact : ∀ wi ∈ r.active, wi < m.workers.length)
    (hsam : ∀ wi ∈ r.active, ∀ fi ∈ r.samples wi, fi < m.firms.length)
    (hnn : ∀ j, 0 ≤ (m.wAt j).prod)
    (h : m.step r = some m') :
    ∀ j, ((m.wAt j).educ = true → (m'.wAt j).educ = true) ∧
      (m.wAt j).prod ≤ (m'.wAt j).prod ∧ 0 ≤ (m'.wAt j).prod := by
  simp only [Market.step] at h
  have hInv0 : Market.Inv { m with workers := m.workers.map (fun w => { w with search := false, switch := false }) } :=
    Inv_worker_map hInv _ (fun w => ⟨rfl, rfl⟩)
  cases he : Market.educPhase m.p.premium m.p.weighted r.coins { m with workers := m.workers.map (fun w => { w with search := false, switch := false }) } r.active with
  | none =>
    rw [he] at h
    simp at h
  | some m1 =>
    rw [he] at h
    have hwl0 : ({ m with workers := m.workers.map (fun w => { w with search := false, switch := false }) } : Market).workers.length = m.workers.length := by
      show (m.workers.map _).length = _
      rw [List.length_map]
    obtain ⟨hI1, hp1, hf1, hwl1⟩ := Inv_educPhase hInv0 he
    have hm1 := educPhase_mono hprem
      (fun wi hwi => by rw [hwl0]; exact hact wi hwi)
      (fun j => by rw [(reset_frame m j).2]; exact hnn j) he
    have hwl1' : m1.workers.length = m.workers.length := by
      rw [hwl1, hwl0]
    have hfl1' : m1.firms.length = m.firms.length := by
      rw [hf1]
    have h2 : (match Market.selPhase r.samples m1 r.active with
        | none => none
        | some m2 => some m2.postStep) = some m' := h
    cases hs : Market.selPhase r.samples m1 r.active with
    | none =>
      rw [hs] at h2
      simp at h2
    | some m2 =>
      rw [hs] at h2
      have hEq : m2.postStep = m' := Option.some_inj.mp h2
      obtain ⟨hI2, _, _, _, hfr2⟩ := Inv_selPhase hI1
        (fun x hx => by rw [hwl1']; exact hact x hx)
        (fun x hx fi hfi => by rw [hfl1']; exact hsam x hx fi hfi)
        hs
      obtain ⟨_, _, _, _, hfr5⟩ := Inv_postStep hI2
      intro j
      have hre := reset_frame m j
      have hj1 := hm1 j
      rw [hre.1, hre.2] at hj1
      refine ⟨?_, ?_, ?_⟩
      · intro hh
        rw [← hEq, (hfr5 j).1, (hfr2 j).1]
        exact hj1.1 hh
      · rw [← hEq, (hfr5 j).2.1, (hfr2 j).2]
        exact hj1.2.1
      · rw [← hEq, (hfr5 j).2.1, (hfr2 j).2]
        exact hj1.2.2

/-- C8: over the whole step loop from any invariant state with
non-negative premium and productivities, the `educ` flag only ever
latches from `false` to `true` and productivity never decreases. -/
theorem education_latch_prod_monotone : ∀ {rands : List StepRand} {m m' : Market},
    m.Inv →
    0 ≤ m.p.premium →
    (∀ r ∈ rands, ∀ wi ∈ r.active, wi < m.p.n_workers) →
    (∀ r ∈ rands, ∀ wi ∈ r.active, ∀ fi ∈ r.samples wi, fi < 2 * m.p.n_workers + 1) →
    (∀ j, 0 ≤ (m.wAt j).prod) →
    Market.runSteps m rands = some m' →
    ∀ j, ((m.wAt j).educ = true → (m'.wAt j).educ = true) ∧
      (m.wAt j).prod ≤ (m'.wAt j).prod := by
  intro rands
  induction rands with
  | nil =>
    intro m m' _ _ _ _ _ h
    have h' : m = m' := Option.some_inj.mp h
    subst h'
    exact fun j => ⟨fun hh => hh, le_refl _⟩
  | cons r rs ih =>
    intro m m' hInv hprem hact hsam hnn h
    have h0 : (match m.step r with
      | none => none
      | some m1 => Market.runSteps m1.update rs) = some m' := h
    cases hs : m.step r with
    | none =>
      rw [hs] at h0
      exact absurd h0 (by simp)
    | some m1 =>
      rw [hs] at h0
      have h1 : Market.runSteps m1.update rs = some m' := h0
      have hactm : ∀ wi ∈ r.active, wi < m.workers.length := by
        intro wi hwi
        rw [hInv.wlen]
        exact hact r (List.mem_cons_self r rs) wi hwi
      have hsamm : ∀ wi ∈ r.active, ∀ fi ∈ r.samples wi, fi < m.firms.length := by
        intro wi hwi fi hfi
        rw [hInv.flen]
        exact hsam r (List.mem_cons_self r rs) wi hwi fi hfi
      obtain ⟨hI1, hp1, _, _⟩ := step_spec hInv hactm hsamm hs
      have hmono1 := step_mono hInv hprem hactm hsamm hnn hs
      have hup : ∀ j, m1.update.wAt j = m1.wAt j := fun j => rfl
      have hupp : m1.update.p = m.p := hp1
      have hmono2 := ih (Inv_update hI1)
        (by rw [hupp]; exact hprem)
        (fun r' hr' wi hwi => by
          rw [hupp]
          exact hact r' (List.mem_cons_of_mem r hr') wi hwi)
        (fun r' hr' wi hwi fi hfi => by
          rw [hupp]
          exact hsam r' (List.mem_cons_of_mem r hr') wi hwi fi hfi)
        (fun j => by rw [hup j]; exact (hmono1 j).2.2)
        h1
      intro j
      refine ⟨?_, ?_⟩
      · intro hh
        have := (hmono1 j).1 hh
        exact (hmono2 j).1 (by rw [hup j]; exact this)
      · have h3 := (hmono2 j).2
        rw [hup j] at h3
        exact le_trans (hmono1 j).2.1 h3

/-- The final state of the concrete one-step run used to witness the
monotonicity claim. -/
def mC8 : Market :=
  ((Market.setup p1c [1] [10] [1/2, 0, 0]).update.runSteps [r1c]).getD dM

theorem education_latch_prod_monotone_witness : (10 : ℚ) ≤ (mC8.wAt 0).prod := by
  have hwl : (Market.setup p1c [1] [10] [1/2, 0, 0]).update.workers.length = 1 :=
    (setup_spec p1c [1] [10] [1/2, 0, 0]).2.1
  have hprod0 : ((Market.setup p1c [1] [10] [1/2, 0, 0]).update.wAt 0).prod = 10 := by
    norm_num [Market.update, p1c, range_one, range_three, Market.setup,
      Market.setupLoop, Market.setupStep, Worker.setup, Firm.setup, Firm.hire,
      Firm.set_size, Firm.calc_wage, Worker.update_employer, Market.wAt,
      Market.fAt, Market.dclassOf, dW, dF]
  have hrun : (Market.setup p1c [1] [10] [1/2, 0, 0]).update.runSteps [r1c] =
      some mC8 := by
    norm_num [mC8, p1c, r1c, range_one, range_three, Market.run, Market.setup,
      Market.setupLoop, Market.setupStep, Market.runSteps, Market.update,
      Market.step, Market.postStep, refreshMarket, Market.educPhase,
      Market.selPhase, Market.education_decision, nanGT, nanEQ,
      Market.educ_benefit, Market.calc_avg_d, npMean, Market.rank_firms,
      firstMaxIdx, firstMaxIdxA, Market.firm_selection, Market.switch_employer,
      Market.separate_from_employer, Market.get_education, Worker.record,
      Firm.record, Firm.produce, Firm.calc_profit, Firm.separate, Firm.hire,
      Firm.set_size, Firm.calc_wage, Worker.setup, Firm.setup,
      Worker.update_employer, Market.wAt, Market.fAt, Market.dclassOf, dW, dF]
  have hmono := education_latch_prod_monotone
    (Inv_update (Inv_setup p1c [1] [10] [1/2, 0, 0] (by decide)))
    (le_refl _)
    (by decide)
    (by decide)
    (fun j => by
      cases j with
      | zero =>
        rw [hprod0]
        norm_num
      | succ n =>
        have hge : (Market.setup p1c [1] [10] [1/2, 0, 0]).update.wAt (n + 1) = dW :=
          getD_of_ge _ dW (by rw [hwl]; omega)
        rw [hge]
        norm_num [dW])
    hrun
  have := (hmono 0).2
  rw [hprod0] at this
  exact this

end ClaimC8

section ClaimC5

/-- The configuration of the worked example: 2 workers, productivity
range `[10, 10]`, discount range `[0, 0]`, premium 0, all workers active,
sample 1, one step. -/
def p5 : Params :=
  { n_workers := 2, prod_range_lo := 10, prod_range_hi := 10, d_range_lo := 0,
    d_range_hi := 0, premium := 0, weighted := true, d_class := 1,
    active := 1, sample := 1, steps := 1 }

/-- Step draws for the example run: both workers active, tie-break coins
`False`, worker `wi` samples the empty firm `wi + 2`. -/
def r5 : StepRand :=
  { active := [0, 1], coins := fun _ => false, samples := fun wi => [wi + 2] }

/-- The same draws with the indifference coins `True`. -/
def r5e : StepRand :=
  { active := [0, 1], coins := fun _ => true, samples := fun wi => [wi + 2] }

/-- C5, evaluated at the failing input: in the example configuration the
single-employee firm 0 ends the run with profit `80 − 80 = 0`, not the
claimed `10×1×1 − 10×8 = −70`; and when the indifference coins come up
`True`, both workers do become educated (the tie-break is random, so "no
education occurs" is not guaranteed), while wages still equal 10. -/
theorem profit_example_counterexample :
    ((Market.run p5 [1, 0] [10, 10] [0, 0, 0, 0, 0] [r5]).map
      (fun m => ((m.fAt 0).size, (m.fAt 0).profit, (m.wAt 0).educ, (m.wAt 0).wage)) =
      some (1, 0, false, 10)) ∧
    ((Market.run p5 [1, 0] [10, 10] [0, 0, 0, 0, 0] [r5e]).map
      (fun m => ((m.wAt 0).educ, (m.wAt 1).educ, (m.wAt 0).wage, (m.wAt 1).wage)) =
      some (true, true, 10, 10)) ∧
    (0 : ℚ) ≠ -70 := by
  refine ⟨?_, ?_, by norm_num⟩
  · norm_num [p5, r5, range_two, range_five, Market.run, Market.setup,
      Market.setupLoop, Market.setupStep, Market.runSteps, Market.update,
      Market.step, Market.postStep, refreshMarket, Market.educPhase,
      Market.selPhase, Market.education_decision, nanGT, nanEQ,
      Market.educ_benefit, Market.calc_avg_d, npMean, Market.rank_firms,
      firstMaxIdx, firstMaxIdxA, Market.firm_selection, Market.switch_employer,
      Market.separate_from_employer, Market.get_education, Worker.record,
      Firm.record, Firm.produce, Firm.calc_profit, Firm.separate, Firm.hire,
      Firm.set_size, Firm.calc_wage, Worker.setup, Firm.setup,
      Worker.update_employer, Market.wAt, Market.fAt, Market.dclassOf, dW, dF]
  · norm_num [p5, r5e, range_two, range_five, Market.run, Market.setup,
      Market.setupLoop, Market.setupStep, Market.runSteps, Market.update,
      Market.step, Market.postStep, refreshMarket, Market.educPhase,
      Market.selPhase, Market.education_decision, nanGT, nanEQ,
      Market.educ_benefit, Market.calc_avg_d, npMean, Market.rank_firms,
      firstMaxIdx, firstMaxIdxA, Market.firm_selection, Market.switch_employer,
      Market.separate_from_employer, Market.get_education, Worker.record,
      Firm.record, Firm.produce, Firm.calc_profit, Firm.separate, Firm.hire,
      Firm.set_size, Firm.calc_wage, Worker.setup, Firm.setup,
      Worker.update_employer, Market.wAt, Market.fAt, Market.dclassOf, dW, dF]

/-- C5, amended: in the example configuration (one worker of each class,
arbitrary tie-break coins `c0`, `c1`), every worker ends the run with
wage 10 and productivity 10 regardless of class, every firm's profit —
in particular the single-employee firms' — is 0, and each worker ends
educated exactly when its indifference coin came up `True`. -/
theorem profit_example_amended (c0 c1 : Bool) :
    (Market.run p5 [1, 0] [10, 10] [0, 0, 0, 0, 0]
      [{ active := [0, 1], coins := fun i => if i = 0 then c0 else c1,
         samples := fun wi => [wi + 2] }]).map
      (fun m => ((m.wAt 0).wage, (m.wAt 1).wage, (m.wAt 0).prod, (m.wAt 1).prod,
                 m.firms.map (fun f => f.profit), (m.wAt 0).educ, (m.wAt 1).educ)) =
      some (10, 10, 10, 10, [0, 0, 0, 0, 0], c0, c1) := by
  cases c0 <;> cases c1 <;>
    norm_num [p5, range_two, range_five, Market.run, Market.setup,
      Market.setupLoop, Market.setupStep, Market.runSteps, Market.update,
      Market.step, Market.postStep, refreshMarket, Market.educPhase,
      Market.selPhase, Market.education_decision, nanGT, nanEQ,
      Market.educ_benefit, Market.calc_avg_d, npMean, Market.rank_firms,
      firstMaxIdx, firstMaxIdxA, Market.firm_selection, Market.switch_employer,
      Market.separate_from_employer, Market.get_education, Worker.record,
      Firm.record, Firm.produce, Firm.calc_profit, Firm.separate, Firm.hire,
      Firm.set_size, Firm.calc_wage, Worker.setup, Firm.setup,
      Worker.update_employer, Market.wAt, Market.fAt, Market.dclassOf, dW, dF]

end ClaimC5

end ABM
